import Mathlib

/-!
Verification of the galileo tile-display cache (`src/galileo/src/layer/tiles.rs`)
and the tile-schema builder (`src/galileo/src/tile_schema/builder.rs`).

Shallow embedding conventions:
* `OrderedHashMap` is modelled as an association list with unique keys kept in
  insertion order (`OMap`); `insert` of an existing key replaces the value in
  place, `insert` of a fresh key appends at the back.
* Wall-clock instants and durations are in whole milliseconds (`ℕ`); the f32/f64
  opacity arithmetic of the source is carried out in `ℚ`.  The source compares
  `fade_in_secs > 0.001` where `fade_in_secs = millis / 1000` with millisecond
  granularity, which is the rational comparison written below.
* The external collaborators (tile schema geometry oracle, rect intersection
  test, tile provider, the atomically stored fade duration) are bundled in a
  `TileContext` parameter: the cache code is parametric in them.
* The dead local `tile_indices` set of `update_displayed_tiles` (written to but
  never read) is omitted.
-/

namespace Galileo

/-- Association-list model of `ordered_hash_map::OrderedHashMap`: entries in
insertion order, one entry per key. -/
abbrev OMap (K V : Type) := List (K × V)

namespace OMap

variable {K V : Type} [DecidableEq K]

/-- `OrderedHashMap::get` (also the lookup inside `remove`). -/
def find? (m : OMap K V) (k : K) : Option V :=
  (List.find? (fun kv => decide (kv.1 = k)) m).map Prod.snd

/-- `OrderedHashMap::remove`: drop the (unique) entry with the given key.
Since keys are unique in a hash map, dropping every entry with the key is the
same as dropping the single one. -/
def remove (m : OMap K V) (k : K) : OMap K V :=
  m.filter (fun kv => decide (kv.1 ≠ k))

/-- `OrderedHashMap::insert`: replace in place if the key is present, else
append at the back. -/
def insert : OMap K V → K → V → OMap K V
  | [], k, v => [(k, v)]
  | kv :: rest, k, v =>
      if kv.1 = k then (k, v) :: rest else kv :: insert rest k v

/-- `OrderedHashMap::keys` in iteration order. -/
def keys (m : OMap K V) : List K :=
  m.map Prod.fst

theorem find?_nil (k : K) : find? ([] : OMap K V) k = none := rfl

theorem find?_cons (kv : K × V) (m : OMap K V) (k : K) :
    find? (kv :: m) k = if kv.1 = k then some kv.2 else find? m k := by
  by_cases h : kv.1 = k <;> simp [find?, List.find?_cons, h]

theorem find?_isSome_iff (m : OMap K V) (k : K) :
    (find? m k).isSome = true ↔ ∃ v, (k, v) ∈ m := by
  induction m with
  | nil => simp [find?]
  | cons kv rest ih =>
      rw [find?_cons]
      by_cases h : kv.1 = k
      · subst h
        constructor
        · intro _; exact ⟨kv.2, by simp⟩
        · intro _; simp
      · rw [if_neg h, ih]
        constructor
        · rintro ⟨v, hv⟩; exact ⟨v, List.mem_cons_of_mem _ hv⟩
        · rintro ⟨v, hv⟩
          rcases List.mem_cons.mp hv with h1 | h1
          · exact absurd (congrArg Prod.fst h1.symm) h
          · exact ⟨v, h1⟩

theorem mem_of_find?_eq_some {m : OMap K V} {k : K} {v : V}
    (h : find? m k = some v) : (k, v) ∈ m := by
  induction m with
  | nil => simp [find?] at h
  | cons kv rest ih =>
      rw [find?_cons] at h
      by_cases hk : kv.1 = k
      · rw [if_pos hk] at h
        have : kv = (k, v) := by
          cases kv; cases h; cases hk; rfl
        simp [this]
      · rw [if_neg hk] at h
        exact List.mem_cons_of_mem _ (ih h)

theorem find?_eq_none_iff (m : OMap K V) (k : K) :
    find? m k = none ↔ ∀ v, (k, v) ∉ m := by
  constructor
  · intro h v hv
    have hs : (find? m k).isSome = true := (find?_isSome_iff m k).mpr ⟨v, hv⟩
    rw [h] at hs
    simp at hs
  · intro h
    cases hf : find? m k with
    | none => rfl
    | some v => exact absurd (mem_of_find?_eq_some hf) (h v)

theorem find?_of_mem_of_nodup {m : OMap K V} {k : K} {v : V}
    (hnd : (keys m).Nodup) (hmem : (k, v) ∈ m) : find? m k = some v := by
  induction m with
  | nil => simp at hmem
  | cons kv rest ih =>
      rw [find?_cons]
      rcases List.mem_cons.mp hmem with h1 | h1
      · rw [if_pos (congrArg Prod.fst h1.symm), ← h1]
      · have hk : kv.1 ≠ k := by
          intro hEq
          have : kv.1 ∈ rest.map Prod.fst := by
            rw [hEq]
            exact List.mem_map_of_mem Prod.fst h1
          exact (List.nodup_cons.mp hnd).1 this
        rw [if_neg hk]
        exact ih (List.nodup_cons.mp hnd).2 h1

theorem mem_of_mem_remove {m : OMap K V} {k : K} {kv : K × V}
    (h : kv ∈ remove m k) : kv ∈ m :=
  List.mem_of_mem_filter h

theorem remove_cons (kv : K × V) (m : OMap K V) (k : K) :
    remove (kv :: m) k = if kv.1 = k then remove m k else kv :: remove m k := by
  by_cases h : kv.1 = k <;> simp [remove, List.filter_cons, h]

theorem remove_eq_of_find?_eq_none {m : OMap K V} {k : K}
    (h : find? m k = none) : remove m k = m := by
  apply List.filter_eq_self.mpr
  intro kv hkv
  have hall := (find?_eq_none_iff m k).mp h
  simp only [decide_eq_true_eq]
  intro hEq
  exact hall kv.2 (by rw [← hEq]; exact hkv)

theorem find?_remove (m : OMap K V) (k k' : K) :
    find? (remove m k) k' = if k' = k then none else find? m k' := by
  induction m with
  | nil => by_cases h : k' = k <;> simp [remove, find?, h]
  | cons kv rest ih =>
      rw [remove_cons]
      by_cases hk' : k' = k
      · subst hk'
        rw [if_pos rfl]
        by_cases hk : kv.1 = k'
        · rw [if_pos hk, ih, if_pos rfl]
        · rw [if_neg hk, find?_cons, if_neg hk, ih, if_pos rfl]
      · rw [if_neg hk', find?_cons]
        by_cases hk : kv.1 = k
        · have hne : kv.1 ≠ k' := fun hh => hk' (hh.symm.trans hk)
          rw [if_pos hk, ih, if_neg hk', if_neg hne]
        · rw [if_neg hk, find?_cons]
          by_cases h2 : kv.1 = k'
          · rw [if_pos h2, if_pos h2]
          · rw [if_neg h2, if_neg h2, ih, if_neg hk']

theorem insert_of_forall_not_mem {m : OMap K V} {k : K}
    (h : ∀ v, (k, v) ∉ m) (v : V) : insert m k v = m ++ [(k, v)] := by
  induction m with
  | nil => rfl
  | cons kv rest ih =>
      have hk : kv.1 ≠ k := by
        intro hEq
        exact h kv.2 (by rw [← hEq]; exact List.mem_cons_self kv rest)
      simp only [insert, if_neg hk, List.cons_append]
      rw [ih (fun v' hv' => h v' (List.mem_cons_of_mem _ hv'))]

theorem insert_of_find?_eq_none {m : OMap K V} {k : K}
    (h : find? m k = none) (v : V) : insert m k v = m ++ [(k, v)] :=
  insert_of_forall_not_mem ((find?_eq_none_iff m k).mp h) v

theorem find?_insert (m : OMap K V) (k : K) (v : V) (k' : K) :
    find? (insert m k v) k' = if k = k' then some v else find? m k' := by
  induction m with
  | nil =>
      by_cases h : k = k' <;> simp [insert, find?_cons, find?_nil, h]
  | cons kv rest ih =>
      obtain ⟨k0, v0⟩ := kv
      by_cases hk : k0 = k
      · subst hk
        have hins : insert ((k0, v0) :: rest) k0 v = (k0, v) :: rest := by
          simp [insert]
        rw [hins, find?_cons, find?_cons]
        by_cases h : k0 = k' <;> simp [h]
      · simp only [insert, if_neg hk]
        rw [find?_cons, find?_cons]
        by_cases h2 : k0 = k'
        · subst h2
          have hne : ¬(k = k0) := fun hh => hk hh.symm
          simp [hne]
        · rw [if_neg h2, if_neg h2, ih]

end OMap

/-! ## The displayed-tile cache (`src/galileo/src/layer/tiles.rs`) -/

/-- `DisplayedTile<StyleId>`: opacity (an `f32` in the source) is carried in
`ℚ`, the `web_time::Instant` in whole milliseconds. -/
structure DisplayedTile (Idx Style Bundle : Type) where
  index : Idx
  bundle : Bundle
  style_id : Style
  opacity : ℚ
  displayed_at : ℕ
deriving DecidableEq

namespace DisplayedTile

/-- `DisplayedTile::is_opaque`: `self.opacity >= 0.999`. -/
def is_opaque {Idx Style Bundle : Type}
    (t : DisplayedTile Idx Style Bundle) : Bool :=
  decide ((999 : ℚ) / 1000 ≤ t.opacity)

end DisplayedTile

/-- The external collaborators and configuration of a `TilesContainer`:
the tile schema's geometry oracle `tile_bbox`, the rect intersection test,
the `TileProvider`, and the atomically stored fade-in duration
(in milliseconds, as the `AtomicU64` of the source). -/
structure TileContext (Idx Style Bundle Rect : Type) where
  tile_bbox : Idx → Option Rect
  intersects : Rect → Rect → Bool
  get_tile : Idx → Style → Option Bundle
  fade_in_millis : ℕ

variable {Idx Style Bundle Rect : Type} [DecidableEq Idx] [DecidableEq Style]

/-- `TilesContainer::fade_in_duration().as_secs_f64()`. -/
def fade_in_secs (c : TileContext Idx Style Bundle Rect) : ℚ :=
  (c.fade_in_millis : ℚ) / 1000

/-- `duration_since(displayed_at).as_secs_f64()`; `Instant::duration_since`
saturates at zero, which truncated `ℕ` subtraction models. -/
def elapsed_secs (now displayed_at : ℕ) : ℚ :=
  ((now - displayed_at : ℕ) : ℚ) / 1000

/-- `TilesContainer::requires_animation`:
`self.fade_in_duration.load(..) > 1`. -/
def requires_animation (c : TileContext Idx Style Bundle Rect) : Bool :=
  decide (1 < c.fade_in_millis)

/-- The local accumulators of `update_displayed_tiles` while iterating over
`needed_indices` (lines 65–120): the locked map with needed entries removed,
`needed_tiles`, `to_substitute` and `requires_redraw`. -/
structure UpdateState (Idx Style Bundle Rect : Type) where
  displayed_tiles : OMap (Idx × Style) (DisplayedTile Idx Style Bundle)
  needed_tiles : List (DisplayedTile Idx Style Bundle)
  to_substitute : List Rect
  requires_redraw : Bool

/-- One iteration of the `for index in needed_indices` loop of
`update_displayed_tiles` (lines 75–120). -/
def processIndex (c : TileContext Idx Style Bundle Rect) (style_id : Style)
    (now : ℕ) (st : UpdateState Idx Style Bundle Rect) (index : Idx) :
    UpdateState Idx Style Bundle Rect :=
  match OMap.find? st.displayed_tiles (index, style_id) with
  | some displayed =>
      let displayed_tiles := OMap.remove st.displayed_tiles (index, style_id)
      if DisplayedTile.is_opaque displayed then
        { st with
            displayed_tiles := displayed_tiles
            needed_tiles := st.needed_tiles ++ [displayed] }
      else
        let to_substitute :=
          match c.tile_bbox index with
          | some bbox => st.to_substitute ++ [bbox]
          | none => st.to_substitute
        let displayed' :=
          { displayed with
              opacity :=
                if fade_in_secs c > 1 / 1000 then
                  min (elapsed_secs now displayed.displayed_at / fade_in_secs c) 1
                else 1 }
        { displayed_tiles := displayed_tiles
          needed_tiles := st.needed_tiles ++ [displayed']
          to_substitute := to_substitute
          requires_redraw := true }
  | none =>
      match c.get_tile index style_id with
      | none =>
          match c.tile_bbox index with
          | some bbox => { st with to_substitute := st.to_substitute ++ [bbox] }
          | none => st
      | some bundle =>
          let opacity : ℚ := if requires_animation c then 0 else 1
          let to_substitute :=
            match c.tile_bbox index with
            | some bbox => st.to_substitute ++ [bbox]
            | none => st.to_substitute
          { displayed_tiles := st.displayed_tiles
            needed_tiles := st.needed_tiles ++
              [⟨index, bundle, style_id, opacity, now⟩]
            to_substitute := to_substitute
            requires_redraw := true }

/-- The whole first loop of `update_displayed_tiles` (lines 67–120), starting
from the locked map and empty accumulators. -/
def phase1 (c : TileContext Idx Style Bundle Rect)
    (tiles : OMap (Idx × Style) (DisplayedTile Idx Style Bundle))
    (needed_indices : List Idx) (style_id : Style) (now : ℕ) :
    UpdateState Idx Style Bundle Rect :=
  needed_indices.foldl (processIndex c style_id now) ⟨tiles, [], [], false⟩

/-- The check `displayed_bbox.intersects(*subst_bbox)` guarded by
`let Some(displayed_bbox) = self.tile_schema.tile_bbox(key.0) else continue`
(lines 127–131). -/
def bboxIntersects (c : TileContext Idx Style Bundle Rect)
    (key : Idx × Style) (subst_bbox : Rect) : Bool :=
  match c.tile_bbox key.1 with
  | none => false
  | some displayed_bbox => c.intersects displayed_bbox subst_bbox

/-- One iteration of the `for subst_bbox in &to_substitute` loop
(lines 125–145): collect the intersecting keys still displayed, then move each
of them from the old map into `new_displayed`. -/
def moveIntersecting (c : TileContext Idx Style Bundle Rect)
    (p : OMap (Idx × Style) (DisplayedTile Idx Style Bundle) ×
         OMap (Idx × Style) (DisplayedTile Idx Style Bundle))
    (subst_bbox : Rect) :
    OMap (Idx × Style) (DisplayedTile Idx Style Bundle) ×
    OMap (Idx × Style) (DisplayedTile Idx Style Bundle) :=
  let selected := (OMap.keys p.1).filter (fun key => bboxIntersects c key subst_bbox)
  selected.foldl
    (fun q key =>
      match OMap.find? q.1 key with
      | none => q
      | some tile => (OMap.remove q.1 key, OMap.insert q.2 key tile))
    p

/-- The rebuild of the map (lines 122–150): substitute loop over
`to_substitute` into a fresh `new_displayed`, then insert every needed tile by
its `(index, style_id)` key. -/
def rebuildMap (c : TileContext Idx Style Bundle Rect)
    (displayed_tiles : OMap (Idx × Style) (DisplayedTile Idx Style Bundle))
    (to_substitute : List Rect)
    (needed_tiles : List (DisplayedTile Idx Style Bundle)) :
    OMap (Idx × Style) (DisplayedTile Idx Style Bundle) :=
  let p := to_substitute.foldl (moveIntersecting c) (displayed_tiles, [])
  needed_tiles.foldl
    (fun new_displayed tile =>
      OMap.insert new_displayed (tile.index, tile.style_id) tile)
    p.2

/-- `TilesContainer::update_displayed_tiles` (lines 60–153): returns the new
contents of the locked map together with `requires_redraw`. -/
def update_displayed_tiles (c : TileContext Idx Style Bundle Rect)
    (tiles : OMap (Idx × Style) (DisplayedTile Idx Style Bundle))
    (needed_indices : List Idx) (style_id : Style) (now : ℕ) :
    OMap (Idx × Style) (DisplayedTile Idx Style Bundle) × Bool :=
  let st := phase1 c tiles needed_indices style_id now
  (rebuildMap c st.displayed_tiles st.to_substitute st.needed_tiles,
   st.requires_redraw)

/-- The list of fallback bounding boxes recorded during an update call. -/
def fallbackRegions (c : TileContext Idx Style Bundle Rect)
    (tiles : OMap (Idx × Style) (DisplayedTile Idx Style Bundle))
    (needed_indices : List Idx) (style_id : Style) (now : ℕ) : List Rect :=
  (phase1 c tiles needed_indices style_id now).to_substitute

/-- Key/value consistency of the cache map: every entry is stored under the
key made of its own index and style.  `update_displayed_tiles` only ever
inserts entries this way, so this is an invariant of the container. -/
def WFMap (m : OMap (Idx × Style) (DisplayedTile Idx Style Bundle)) : Prop :=
  ∀ kv ∈ m, kv.1 = (kv.2.index, kv.2.style_id)

/-! ### Characterization of the first loop against the initial map -/

/-- The tile a needed index contributes to `needed_tiles`, read off the map as
it was at the start of the call. -/
def tileOf (c : TileContext Idx Style Bundle Rect)
    (m : OMap (Idx × Style) (DisplayedTile Idx Style Bundle))
    (style_id : Style) (now : ℕ) (index : Idx) :
    Option (DisplayedTile Idx Style Bundle) :=
  match OMap.find? m (index, style_id) with
  | some displayed =>
      if DisplayedTile.is_opaque displayed then some displayed
      else some
        { displayed with
            opacity :=
              if fade_in_secs c > 1 / 1000 then
                min (elapsed_secs now displayed.displayed_at / fade_in_secs c) 1
              else 1 }
  | none =>
      (c.get_tile index style_id).map
        (fun bundle =>
          ⟨index, bundle, style_id,
           if requires_animation c then 0 else 1, now⟩)

/-- The fallback bounding box a needed index contributes to `to_substitute`. -/
def regionOf (c : TileContext Idx Style Bundle Rect)
    (m : OMap (Idx × Style) (DisplayedTile Idx Style Bundle))
    (style_id : Style) (index : Idx) : Option Rect :=
  match OMap.find? m (index, style_id) with
  | some displayed => if DisplayedTile.is_opaque displayed then none else c.tile_bbox index
  | none => c.tile_bbox index

/-- Whether a needed index sets `requires_redraw`. -/
def redrawOf (c : TileContext Idx Style Bundle Rect)
    (m : OMap (Idx × Style) (DisplayedTile Idx Style Bundle))
    (style_id : Style) (index : Idx) : Bool :=
  match OMap.find? m (index, style_id) with
  | some displayed => !DisplayedTile.is_opaque displayed
  | none => (c.get_tile index style_id).isSome

theorem tileOf_congr {c : TileContext Idx Style Bundle Rect}
    {m₁ m₂ : OMap (Idx × Style) (DisplayedTile Idx Style Bundle)}
    {style_id : Style} {now : ℕ} {index : Idx}
    (h : OMap.find? m₁ (index, style_id) = OMap.find? m₂ (index, style_id)) :
    tileOf c m₁ style_id now index = tileOf c m₂ style_id now index := by
  unfold tileOf
  rw [h]

theorem regionOf_congr {c : TileContext Idx Style Bundle Rect}
    {m₁ m₂ : OMap (Idx × Style) (DisplayedTile Idx Style Bundle)}
    {style_id : Style} {index : Idx}
    (h : OMap.find? m₁ (index, style_id) = OMap.find? m₂ (index, style_id)) :
    regionOf c m₁ style_id index = regionOf c m₂ style_id index := by
  unfold regionOf
  rw [h]

theorem redrawOf_congr {c : TileContext Idx Style Bundle Rect}
    {m₁ m₂ : OMap (Idx × Style) (DisplayedTile Idx Style Bundle)}
    {style_id : Style} {index : Idx}
    (h : OMap.find? m₁ (index, style_id) = OMap.find? m₂ (index, style_id)) :
    redrawOf c m₁ style_id index = redrawOf c m₂ style_id index := by
  unfold redrawOf
  rw [h]

theorem filterMap_cons_toList {α β : Type} (f : α → Option β) (a : α)
    (l : List α) :
    List.filterMap f (a :: l) = (f a).toList ++ List.filterMap f l := by
  cases h : f a <;> simp [List.filterMap_cons, h]

/-- A single loop iteration, written as one equation: the needed key is
removed, the contributed tile/fallback region are appended, and the redraw
flag is or-ed in. -/
theorem processIndex_eq (c : TileContext Idx Style Bundle Rect)
    (style_id : Style) (now : ℕ) (st : UpdateState Idx Style Bundle Rect)
    (index : Idx) :
    processIndex c style_id now st index =
      ⟨OMap.remove st.displayed_tiles (index, style_id),
       st.needed_tiles ++ (tileOf c st.displayed_tiles style_id now index).toList,
       st.to_substitute ++ (regionOf c st.displayed_tiles style_id index).toList,
       st.requires_redraw || redrawOf c st.displayed_tiles style_id index⟩ := by
  cases hf : OMap.find? st.displayed_tiles (index, style_id) with
  | some displayed =>
      cases hop : DisplayedTile.is_opaque displayed with
      | true =>
          cases hb : c.tile_bbox index <;>
            simp [processIndex, tileOf, regionOf, redrawOf, hf, hop, hb]
      | false =>
          cases hb : c.tile_bbox index <;>
            simp [processIndex, tileOf, regionOf, redrawOf, hf, hop, hb]
  | none =>
      have hrm := OMap.remove_eq_of_find?_eq_none hf
      cases hg : c.get_tile index style_id with
      | none =>
          cases hb : c.tile_bbox index <;>
            simp [processIndex, tileOf, regionOf, redrawOf, hf, hg, hb, hrm]
      | some bundle =>
          cases hb : c.tile_bbox index <;>
            simp [processIndex, tileOf, regionOf, redrawOf, hf, hg, hb, hrm]

/-- Characterization of the whole first loop over a duplicate-free needed
list, relative to the contents of the map at the start of the call. -/
theorem phase1_foldl_char (c : TileContext Idx Style Bundle Rect)
    (style_id : Style) (now : ℕ)
    (m : OMap (Idx × Style) (DisplayedTile Idx Style Bundle)) :
    ∀ (l : List Idx) (st : UpdateState Idx Style Bundle Rect), l.Nodup →
      (∀ i ∈ l, OMap.find? st.displayed_tiles (i, style_id) =
        OMap.find? m (i, style_id)) →
      l.foldl (processIndex c style_id now) st =
        ⟨l.foldl (fun d i => OMap.remove d (i, style_id)) st.displayed_tiles,
         st.needed_tiles ++ l.filterMap (tileOf c m style_id now),
         st.to_substitute ++ l.filterMap (regionOf c m style_id),
         st.requires_redraw || l.any (redrawOf c m style_id)⟩ := by
  intro l
  induction l with
  | nil => intro st _ _; simp
  | cons i rest ih =>
      intro st hnd hagree
      have hi : OMap.find? st.displayed_tiles (i, style_id) =
          OMap.find? m (i, style_id) :=
        hagree i (List.mem_cons_self i rest)
      rw [List.foldl_cons, processIndex_eq]
      have hagree' : ∀ j ∈ rest,
          OMap.find? (OMap.remove st.displayed_tiles (i, style_id))
            (j, style_id) = OMap.find? m (j, style_id) := by
        intro j hj
        rw [OMap.find?_remove]
        have hji : ¬(j = i) := by
          intro hEq
          exact (List.nodup_cons.mp hnd).1 (hEq ▸ hj)
        rw [if_neg (by simp [hji])]
        exact hagree j (List.mem_cons_of_mem _ hj)
      rw [ih _ (List.nodup_cons.mp hnd).2 hagree']
      simp only [List.foldl_cons]
      congr 1
      · rw [tileOf_congr hi, List.append_assoc,
          ← filterMap_cons_toList (tileOf c m style_id now) i rest]
      · rw [regionOf_congr hi, List.append_assoc,
          ← filterMap_cons_toList (regionOf c m style_id) i rest]
      · rw [redrawOf_congr hi, Bool.or_assoc, List.any_cons]

/-- Iterated key removal is a filter on the initial map. -/
theorem foldl_remove_eq_filter {V : Type} (style_id : Style) :
    ∀ (l : List Idx) (d : OMap (Idx × Style) V),
      l.foldl (fun d i => OMap.remove d (i, style_id)) d =
        d.filter (fun kv =>
          !(decide (kv.1.2 = style_id) && decide (kv.1.1 ∈ l))) := by
  intro l
  induction l with
  | nil =>
      intro d
      simp only [List.foldl_nil]
      symm
      apply List.filter_eq_self.mpr
      intro kv _
      simp
  | cons i rest ih =>
      intro d
      rw [List.foldl_cons, ih, OMap.remove, List.filter_filter]
      apply List.filter_congr
      intro kv _
      by_cases h1 : kv.1.2 = style_id <;> by_cases h2 : kv.1.1 = i <;>
        by_cases h3 : kv.1.1 ∈ rest <;>
          simp [h1, h2, h3, Prod.ext_iff, List.mem_cons]

/-- The first loop of `update_displayed_tiles`, fully characterized against
the initial map contents for a duplicate-free needed list. -/
theorem phase1_char (c : TileContext Idx Style Bundle Rect)
    (m : OMap (Idx × Style) (DisplayedTile Idx Style Bundle))
    (needed_indices : List Idx) (style_id : Style) (now : ℕ)
    (hnd : needed_indices.Nodup) :
    phase1 c m needed_indices style_id now =
      ⟨m.filter (fun kv =>
          !(decide (kv.1.2 = style_id) && decide (kv.1.1 ∈ needed_indices))),
       needed_indices.filterMap (tileOf c m style_id now),
       needed_indices.filterMap (regionOf c m style_id),
       needed_indices.any (redrawOf c m style_id)⟩ := by
  unfold phase1
  rw [phase1_foldl_char c style_id now m needed_indices ⟨m, [], [], false⟩ hnd
    (fun _ _ => rfl)]
  simp [foldl_remove_eq_filter]

/-! ### Characterization of the rebuild loops -/

theorem OMap.mem_keys_iff {K V : Type} (m : OMap K V) (k : K) :
    k ∈ OMap.keys m ↔ ∃ v, (k, v) ∈ m := by
  constructor
  · intro h
    rcases List.mem_map.mp h with ⟨kv, hkv, hEq⟩
    exact ⟨kv.2, by rw [← hEq]; exact hkv⟩
  · rintro ⟨v, hv⟩
    exact List.mem_map.mpr ⟨(k, v), hv, rfl⟩

theorem OMap.keys_append {K V : Type} (m₁ m₂ : OMap K V) :
    OMap.keys (m₁ ++ m₂) = OMap.keys m₁ ++ OMap.keys m₂ :=
  List.map_append Prod.fst m₁ m₂

theorem OMap.find?_eq_none_of_not_mem_keys {K V : Type} [DecidableEq K]
    {m : OMap K V} {k : K} (h : k ∉ OMap.keys m) : OMap.find? m k = none :=
  (OMap.find?_eq_none_iff m k).mpr
    (fun v hv => h ((OMap.mem_keys_iff m k).mpr ⟨v, hv⟩))

theorem OMap.keys_filter_sublist {K V : Type} (m : OMap K V)
    (p : K × V → Bool) :
    List.Sublist (OMap.keys (m.filter p)) (OMap.keys m) :=
  (List.filter_sublist m).map Prod.fst

/-- The step of the inner `for key in &selected` loop (lines 136–142). -/
def moveStep {Idx Style Bundle : Type} [DecidableEq Idx] [DecidableEq Style]
    (q : OMap (Idx × Style) (DisplayedTile Idx Style Bundle) ×
         OMap (Idx × Style) (DisplayedTile Idx Style Bundle))
    (key : Idx × Style) :
    OMap (Idx × Style) (DisplayedTile Idx Style Bundle) ×
    OMap (Idx × Style) (DisplayedTile Idx Style Bundle) :=
  match OMap.find? q.1 key with
  | none => q
  | some tile => (OMap.remove q.1 key, OMap.insert q.2 key tile)

theorem moveIntersecting_eq (c : TileContext Idx Style Bundle Rect)
    (p : OMap (Idx × Style) (DisplayedTile Idx Style Bundle) ×
         OMap (Idx × Style) (DisplayedTile Idx Style Bundle))
    (subst_bbox : Rect) :
    moveIntersecting c p subst_bbox =
      ((OMap.keys p.1).filter
        (fun key => bboxIntersects c key subst_bbox)).foldl moveStep p := rfl

theorem foldl_moveStep_cons
    (kv : (Idx × Style) × DisplayedTile Idx Style Bundle) :
    ∀ (ks : List (Idx × Style))
      (d nd : OMap (Idx × Style) (DisplayedTile Idx Style Bundle)),
      (∀ k ∈ ks, k ≠ kv.1) →
      ks.foldl moveStep (kv :: d, nd) =
        (kv :: (ks.foldl moveStep (d, nd)).1, (ks.foldl moveStep (d, nd)).2) := by
  intro ks
  induction ks with
  | nil => intro d nd _; simp
  | cons k ks' ih =>
      intro d nd h
      have hk : k ≠ kv.1 := h k (List.mem_cons_self k ks')
      have h' : ∀ k' ∈ ks', k' ≠ kv.1 := fun k' hk' =>
        h k' (List.mem_cons_of_mem _ hk')
      rw [List.foldl_cons, List.foldl_cons]
      have hfind : OMap.find? (kv :: d) k = OMap.find? d k := by
        rw [OMap.find?_cons, if_neg (fun hh => hk hh.symm)]
      cases hf : OMap.find? d k with
      | none =>
          have : moveStep (kv :: d, nd) k = (kv :: d, nd) := by
            simp [moveStep, hfind, hf]
          rw [this]
          have : moveStep (d, nd) k = (d, nd) := by
            simp [moveStep, hf]
          rw [this]
          exact ih d nd h'
      | some tile =>
          have hrc : OMap.remove (kv :: d) k = kv :: OMap.remove d k := by
            rw [OMap.remove_cons, if_neg (fun hh => hk hh.symm)]
          have h1 : moveStep (kv :: d, nd) k =
              (kv :: OMap.remove d k, OMap.insert nd k tile) := by
            simp [moveStep, hfind, hf, hrc]
          have h2 : moveStep (d, nd) k =
              (OMap.remove d k, OMap.insert nd k tile) := by
            simp [moveStep, hf]
          rw [h1, h2]
          exact ih (OMap.remove d k) (OMap.insert nd k tile) h'

/-- One substitute-region pass moves exactly the still-displayed entries whose
bounding box intersects the region, in map order, appending them to
`new_displayed`. -/
theorem moveIntersecting_char (c : TileContext Idx Style Bundle Rect) :
    ∀ (d nd : OMap (Idx × Style) (DisplayedTile Idx Style Bundle)) (r : Rect),
      (OMap.keys d).Nodup →
      (∀ k ∈ OMap.keys nd, k ∉ OMap.keys d) →
      moveIntersecting c (d, nd) r =
        (d.filter (fun kv => !bboxIntersects c kv.1 r),
         nd ++ d.filter (fun kv => bboxIntersects c kv.1 r)) := by
  intro d
  induction d with
  | nil => intro nd r _ _; simp [moveIntersecting_eq, OMap.keys]
  | cons kv d' ih =>
      intro nd r hnd hdisj
      have hkeys : OMap.keys (kv :: d') = kv.1 :: OMap.keys d' := rfl
      have hnotmem : kv.1 ∉ OMap.keys d' := by
        rw [hkeys] at hnd
        exact (List.nodup_cons.mp hnd).1
      have hnd' : (OMap.keys d').Nodup := by
        rw [hkeys] at hnd
        exact (List.nodup_cons.mp hnd).2
      have hdisj' : ∀ k ∈ OMap.keys nd, k ∉ OMap.keys d' := by
        intro k hk hmem
        have := hdisj k hk
        rw [hkeys] at this
        exact this (List.mem_cons_of_mem _ hmem)
      rw [moveIntersecting_eq]
      simp only [hkeys, List.filter_cons]
      cases hp : bboxIntersects c kv.1 r with
      | true =>
          rw [if_pos rfl]
          rw [List.foldl_cons]
          have hstep : moveStep (kv :: d', nd) kv.1 = (d', nd ++ [kv]) := by
            have hfind : OMap.find? (kv :: d') kv.1 = some kv.2 := by
              rw [OMap.find?_cons, if_pos rfl]
            have hrm : OMap.remove (kv :: d') kv.1 = d' := by
              rw [OMap.remove_cons, if_pos rfl,
                OMap.remove_eq_of_find?_eq_none
                  (OMap.find?_eq_none_of_not_mem_keys hnotmem)]
            have hnokey : ∀ v, (kv.1, v) ∉ nd := by
              intro v hv
              have hhk : kv.1 ∈ OMap.keys nd :=
                (OMap.mem_keys_iff nd kv.1).mpr ⟨v, hv⟩
              have h2 := hdisj kv.1 hhk
              rw [hkeys] at h2
              exact h2 (List.mem_cons_self _ _)
            have hins : OMap.insert nd kv.1 kv.2 = nd ++ [kv] :=
              OMap.insert_of_forall_not_mem hnokey kv.2
            simp [moveStep, hfind, hrm, hins]
          have hdisj2 : ∀ k ∈ OMap.keys (nd ++ [kv]), k ∉ OMap.keys d' := by
            intro k hk
            have hk' : k ∈ OMap.keys nd ++ [kv.1] := by
              simpa [OMap.keys] using hk
            rcases List.mem_append.mp hk' with h1 | h1
            · exact hdisj' k h1
            · rw [List.mem_singleton.mp h1]
              exact hnotmem
          rw [hstep, ← moveIntersecting_eq c (d', nd ++ [kv]) r,
            ih (nd ++ [kv]) r hnd' hdisj2]
          simp
      | false =>
          rw [if_neg (by simp)]
          have hsel : ∀ k ∈ (OMap.keys d').filter
              (fun key => bboxIntersects c key r), k ≠ kv.1 := by
            intro k hk hEq
            exact hnotmem (hEq ▸ List.mem_of_mem_filter hk)
          rw [foldl_moveStep_cons kv _ d' nd hsel,
            ← moveIntersecting_eq c (d', nd) r, ih nd r hnd' hdisj']
          simp

/-- Definition following the specification's words for the rebuild, §4.1 step
3: for each fallback region in the order recorded, move every remaining old
entry whose bounding box intersects it into the new map; an entry removed for
an earlier region is unavailable to later ones (first region wins). -/
def fallbackSpec (c : TileContext Idx Style Bundle Rect) :
    OMap (Idx × Style) (DisplayedTile Idx Style Bundle) → List Rect →
    OMap (Idx × Style) (DisplayedTile Idx Style Bundle)
  | _, [] => []
  | m, r :: rest =>
      m.filter (fun kv => bboxIntersects c kv.1 r) ++
        fallbackSpec c (m.filter (fun kv => !bboxIntersects c kv.1 r)) rest

omit [DecidableEq Idx] [DecidableEq Style] in
theorem keys_filter_key_disjoint
    (d : OMap (Idx × Style) (DisplayedTile Idx Style Bundle))
    (pb : (Idx × Style) → Bool) :
    ∀ k ∈ OMap.keys (d.filter (fun kv => pb kv.1)),
      k ∉ OMap.keys (d.filter (fun kv => !pb kv.1)) := by
  intro k hk hk'
  rcases (OMap.mem_keys_iff _ k).mp hk with ⟨v, hv⟩
  rcases (OMap.mem_keys_iff _ k).mp hk' with ⟨v', hv'⟩
  have h1 : pb k = true := by
    have := (List.mem_filter.mp hv).2
    simpa using this
  have h2 : pb k = false := by
    have := (List.mem_filter.mp hv').2
    simpa using this
  rw [h1] at h2
  exact Bool.noConfusion h2

/-- The whole substitute loop: the remaining old entries are those whose
bounding box meets none of the recorded regions, and `new_displayed` collects
exactly the `fallbackSpec` selection. -/
theorem foldl_moveIntersecting_char (c : TileContext Idx Style Bundle Rect) :
    ∀ (subs : List Rect)
      (d nd : OMap (Idx × Style) (DisplayedTile Idx Style Bundle)),
      (OMap.keys d).Nodup →
      (∀ k ∈ OMap.keys nd, k ∉ OMap.keys d) →
      subs.foldl (moveIntersecting c) (d, nd) =
        (d.filter (fun kv => subs.all (fun r => !bboxIntersects c kv.1 r)),
         nd ++ fallbackSpec c d subs) := by
  intro subs
  induction subs with
  | nil =>
      intro d nd _ _
      simp only [List.foldl_nil, fallbackSpec, List.append_nil]
      rw [List.filter_eq_self.mpr (fun kv _ => by simp)]
  | cons r rest ih =>
      intro d nd hnd hdisj
      rw [List.foldl_cons, moveIntersecting_char c d nd r hnd hdisj]
      rw [ih _ _ ?_ ?_]
      · congr 1
        · rw [List.filter_filter]
          apply List.filter_congr
          intro kv _
          rw [List.all_cons]
          cases hbi : bboxIntersects c kv.1 r <;> simp [hbi]
        · show nd ++ _ ++ _ = nd ++ fallbackSpec c d (r :: rest)
          rw [List.append_assoc]
          rfl
      · exact (OMap.keys_filter_sublist d _).nodup hnd
      · intro k hk
        rw [OMap.keys_append] at hk
        rcases List.mem_append.mp hk with h1 | h1
        · intro hmem
          exact hdisj k h1
            ((OMap.keys_filter_sublist d _).subset hmem)
        · exact keys_filter_key_disjoint d
            (fun key => bboxIntersects c key r) k h1

omit [DecidableEq Idx] [DecidableEq Style] in
theorem mem_fallbackSpec (c : TileContext Idx Style Bundle Rect) :
    ∀ (subs : List Rect)
      (d : OMap (Idx × Style) (DisplayedTile Idx Style Bundle))
      (kv : (Idx × Style) × DisplayedTile Idx Style Bundle),
      kv ∈ fallbackSpec c d subs ↔
        kv ∈ d ∧ ∃ r ∈ subs, bboxIntersects c kv.1 r = true := by
  intro subs
  induction subs with
  | nil => intro d kv; simp [fallbackSpec]
  | cons r rest ih =>
      intro d kv
      simp only [fallbackSpec, List.mem_append, List.mem_filter, ih]
      cases hbi : bboxIntersects c kv.1 r with
      | true => simp [hbi]
      | false =>
          simp only [hbi, Bool.false_eq_true, and_false, false_or,
            Bool.not_false, and_true, List.mem_cons]
          constructor
          · rintro ⟨h1, r', hr', h2⟩
            exact ⟨h1, r', Or.inr hr', h2⟩
          · rintro ⟨h1, r', hr', h2⟩
            rcases hr' with rfl | hr'
            · rw [hbi] at h2; exact absurd h2 (by simp)
            · exact ⟨h1, r', hr', h2⟩

/-- Step 4 of the rebuild: insert every needed tile by its key. -/
def insertNeeded (needed_tiles : List (DisplayedTile Idx Style Bundle))
    (new_displayed : OMap (Idx × Style) (DisplayedTile Idx Style Bundle)) :
    OMap (Idx × Style) (DisplayedTile Idx Style Bundle) :=
  needed_tiles.foldl
    (fun new_displayed tile =>
      OMap.insert new_displayed (tile.index, tile.style_id) tile)
    new_displayed

theorem rebuildMap_eq (c : TileContext Idx Style Bundle Rect)
    (d : OMap (Idx × Style) (DisplayedTile Idx Style Bundle))
    (subs : List Rect) (nt : List (DisplayedTile Idx Style Bundle)) :
    rebuildMap c d subs nt =
      insertNeeded nt (subs.foldl (moveIntersecting c) (d, [])).2 := rfl

/-- The rebuilt map is: first-region-wins fallback selection, then the needed
tiles inserted by key. -/
theorem rebuildMap_char (c : TileContext Idx Style Bundle Rect)
    (d : OMap (Idx × Style) (DisplayedTile Idx Style Bundle))
    (subs : List Rect) (nt : List (DisplayedTile Idx Style Bundle))
    (hnd : (OMap.keys d).Nodup) :
    rebuildMap c d subs nt = insertNeeded nt (fallbackSpec c d subs) := by
  rw [rebuildMap_eq,
    foldl_moveIntersecting_char c subs d [] hnd (by intro k hk; simp [OMap.keys] at hk)]
  rfl

theorem find?_insertNeeded (k : Idx × Style) :
    ∀ (nt : List (DisplayedTile Idx Style Bundle))
      (nd : OMap (Idx × Style) (DisplayedTile Idx Style Bundle)),
      OMap.find? (insertNeeded nt nd) k =
        match List.find?
            (fun t => decide ((t.index, t.style_id) = k)) nt.reverse with
        | some t => some t
        | none => OMap.find? nd k := by
  intro nt
  induction nt with
  | nil => intro nd; simp [insertNeeded]
  | cons t ts ih =>
      intro nd
      show OMap.find? (insertNeeded ts (OMap.insert nd (t.index, t.style_id) t)) k = _
      rw [ih]
      rw [List.reverse_cons, List.find?_append]
      cases hf : List.find? (fun t => decide ((t.index, t.style_id) = k))
          ts.reverse with
      | some u => simp
      | none =>
          simp only [Option.none_or]
          rw [OMap.find?_insert]
          cases hp : decide ((t.index, t.style_id) = k) with
          | true =>
              rw [if_pos (of_decide_eq_true hp)]
              simp [List.find?_cons, hp]
          | false =>
              rw [if_neg (of_decide_eq_false hp)]
              simp [List.find?_cons, hp]

theorem find?_insertNeeded_isSome_left
    {nt : List (DisplayedTile Idx Style Bundle)}
    {nd : OMap (Idx × Style) (DisplayedTile Idx Style Bundle)}
    {k : Idx × Style} (h : ∃ t ∈ nt, (t.index, t.style_id) = k) :
    (OMap.find? (insertNeeded nt nd) k).isSome = true := by
  rw [find?_insertNeeded]
  rcases h with ⟨t, ht, hk⟩
  have : (List.find? (fun t => decide ((t.index, t.style_id) = k))
      nt.reverse).isSome := by
    rw [List.find?_isSome]
    exact ⟨t, List.mem_reverse.mpr ht, by simp [hk]⟩
  cases hf : List.find? (fun t => decide ((t.index, t.style_id) = k))
      nt.reverse with
  | some u => simp
  | none => rw [hf] at this; simp at this

theorem find?_insertNeeded_isSome_right
    (nt : List (DisplayedTile Idx Style Bundle))
    {nd : OMap (Idx × Style) (DisplayedTile Idx Style Bundle)}
    {k : Idx × Style} (h : (OMap.find? nd k).isSome = true) :
    (OMap.find? (insertNeeded nt nd) k).isSome = true := by
  rw [find?_insertNeeded]
  cases hf : List.find? (fun t => decide ((t.index, t.style_id) = k))
      nt.reverse with
  | some u => simp
  | none => exact h

theorem find?_insertNeeded_eq_some_cases
    {nt : List (DisplayedTile Idx Style Bundle)}
    {nd : OMap (Idx × Style) (DisplayedTile Idx Style Bundle)}
    {k : Idx × Style} {v : DisplayedTile Idx Style Bundle}
    (h : OMap.find? (insertNeeded nt nd) k = some v) :
    (v ∈ nt ∧ (v.index, v.style_id) = k) ∨ OMap.find? nd k = some v := by
  rw [find?_insertNeeded] at h
  cases hf : List.find? (fun t => decide ((t.index, t.style_id) = k))
      nt.reverse with
  | some u =>
      rw [hf] at h
      cases h
      left
      have hp := List.find?_some hf
      simp only [decide_eq_true_eq] at hp
      exact ⟨List.mem_reverse.mp (List.mem_of_find?_eq_some hf), hp⟩
  | none =>
      rw [hf] at h
      right
      exact h

theorem find?_insertNeeded_of_unique
    {nt : List (DisplayedTile Idx Style Bundle)}
    {nd : OMap (Idx × Style) (DisplayedTile Idx Style Bundle)}
    {k : Idx × Style} {tt : DisplayedTile Idx Style Bundle}
    (hmem : tt ∈ nt) (hkey : (tt.index, tt.style_id) = k)
    (huniq : ∀ t ∈ nt, (t.index, t.style_id) = k → t = tt) :
    OMap.find? (insertNeeded nt nd) k = some tt := by
  rw [find?_insertNeeded]
  cases hf : List.find? (fun t => decide ((t.index, t.style_id) = k))
      nt.reverse with
  | some u =>
      have hp := List.find?_some hf
      simp only [decide_eq_true_eq] at hp
      have hu := huniq u
        (List.mem_reverse.mp (List.mem_of_find?_eq_some hf)) hp
      rw [hu]
  | none =>
      exfalso
      have : (List.find? (fun t => decide ((t.index, t.style_id) = k))
          nt.reverse).isSome := by
        rw [List.find?_isSome]
        exact ⟨tt, List.mem_reverse.mpr hmem, by simp [hkey]⟩
      rw [hf] at this
      simp at this

/-! ### Update-level characterizations -/

/-- The old map as it is left after the first loop: needed keys of the call's
style removed. -/
def remainingMap (m : OMap (Idx × Style) (DisplayedTile Idx Style Bundle))
    (needed_indices : List Idx) (style_id : Style) :
    OMap (Idx × Style) (DisplayedTile Idx Style Bundle) :=
  m.filter (fun kv =>
    !(decide (kv.1.2 = style_id) && decide (kv.1.1 ∈ needed_indices)))

theorem update_fst_char (c : TileContext Idx Style Bundle Rect)
    (m : OMap (Idx × Style) (DisplayedTile Idx Style Bundle))
    (needed_indices : List Idx) (style_id : Style) (now : ℕ)
    (hnd : needed_indices.Nodup) (hkeys : (OMap.keys m).Nodup) :
    (update_displayed_tiles c m needed_indices style_id now).1 =
      insertNeeded (needed_indices.filterMap (tileOf c m style_id now))
        (fallbackSpec c (remainingMap m needed_indices style_id)
          (needed_indices.filterMap (regionOf c m style_id))) := by
  show rebuildMap c _ _ _ = _
  rw [phase1_char c m needed_indices style_id now hnd]
  exact rebuildMap_char c _ _ _
    ((OMap.keys_filter_sublist m _).nodup hkeys)

theorem update_snd_char (c : TileContext Idx Style Bundle Rect)
    (m : OMap (Idx × Style) (DisplayedTile Idx Style Bundle))
    (needed_indices : List Idx) (style_id : Style) (now : ℕ)
    (hnd : needed_indices.Nodup) :
    (update_displayed_tiles c m needed_indices style_id now).2 =
      needed_indices.any (redrawOf c m style_id) := by
  show (phase1 c m needed_indices style_id now).requires_redraw = _
  rw [phase1_char c m needed_indices style_id now hnd]

theorem fallbackRegions_char (c : TileContext Idx Style Bundle Rect)
    (m : OMap (Idx × Style) (DisplayedTile Idx Style Bundle))
    (needed_indices : List Idx) (style_id : Style) (now : ℕ)
    (hnd : needed_indices.Nodup) :
    fallbackRegions c m needed_indices style_id now =
      needed_indices.filterMap (regionOf c m style_id) := by
  show (phase1 c m needed_indices style_id now).to_substitute = _
  rw [phase1_char c m needed_indices style_id now hnd]

/-- Under key/value consistency, the tile contributed by a needed index
carries exactly that index and the call's style. -/
theorem tileOf_key_eq {c : TileContext Idx Style Bundle Rect}
    {m : OMap (Idx × Style) (DisplayedTile Idx Style Bundle)}
    {style_id : Style} {now : ℕ} {i : Idx}
    {t : DisplayedTile Idx Style Bundle} (hwf : WFMap m)
    (h : tileOf c m style_id now i = some t) :
    t.index = i ∧ t.style_id = style_id := by
  unfold tileOf at h
  cases hf : OMap.find? m (i, style_id) with
  | some d =>
      simp only [hf] at h
      have hmem := OMap.mem_of_find?_eq_some hf
      have hk := hwf _ hmem
      have hidx : d.index = i := (congrArg Prod.fst hk).symm
      have hsty : d.style_id = style_id := (congrArg Prod.snd hk).symm
      by_cases hop : DisplayedTile.is_opaque d
      · rw [if_pos hop] at h
        cases h
        exact ⟨hidx, hsty⟩
      · rw [if_neg hop] at h
        cases h
        exact ⟨hidx, hsty⟩
  | none =>
      simp only [hf] at h
      cases hg : c.get_tile i style_id with
      | none => simp [hg] at h
      | some bundle =>
          simp only [hg, Option.map_some'] at h
          cases h
          exact ⟨rfl, rfl⟩

/-- A needed index with an entry or a provided tile contributes some tile. -/
theorem tileOf_isSome_of_available {c : TileContext Idx Style Bundle Rect}
    {m : OMap (Idx × Style) (DisplayedTile Idx Style Bundle)}
    {style_id : Style} {now : ℕ} {i : Idx}
    (h : (OMap.find? m (i, style_id)).isSome = true ∨
      (c.get_tile i style_id).isSome = true) :
    (tileOf c m style_id now i).isSome = true := by
  unfold tileOf
  cases hf : OMap.find? m (i, style_id) with
  | some d => by_cases hop : DisplayedTile.is_opaque d <;> simp [hf, hop]
  | none =>
      rcases h with h | h
      · rw [hf] at h; simp at h
      · cases hg : c.get_tile i style_id with
        | none => rw [hg] at h; simp at h
        | some bundle => simp [hf, hg]

/-- A recorded fallback region is always the bounding box of one of the
needed coordinates. -/
theorem regionOf_eq_some {c : TileContext Idx Style Bundle Rect}
    {m : OMap (Idx × Style) (DisplayedTile Idx Style Bundle)}
    {style_id : Style} {i : Idx} {r : Rect}
    (h : regionOf c m style_id i = some r) : c.tile_bbox i = some r := by
  unfold regionOf at h
  cases hf : OMap.find? m (i, style_id) with
  | some d =>
      simp only [hf] at h
      by_cases hop : DisplayedTile.is_opaque d
      · rw [if_pos hop] at h; simp at h
      · rw [if_neg hop] at h; exact h
  | none => simp only [hf] at h; exact h

/-! ## The tile-schema builder (`src/galileo/src/tile_schema/builder.rs`) -/

/-- `galileo_types::cartesian::Point2` (coordinates in `ℚ` for `f64`). -/
structure Point2 where
  x : ℚ
  y : ℚ
deriving DecidableEq

/-- `galileo_types::cartesian::Rect` as used by the builder. -/
structure SchemaRect where
  x_min : ℚ
  y_min : ℚ
  x_max : ℚ
  y_max : ℚ
deriving DecidableEq

/-- `Rect::width`. -/
def SchemaRect.width (r : SchemaRect) : ℚ :=
  r.x_max - r.x_min

/-- `VerticalDirection` from `tile_schema::schema`. -/
inductive VerticalDirection where
  | TopToBottom
  | BottomToTop
deriving DecidableEq

/-- `TileSchemaError`. -/
inductive TileSchemaError where
  | NoZLevelsProvided
  | InvalidTileSize (width : ℕ) (height : ℕ)
deriving DecidableEq

/-- The `Lods` enum of the builder. -/
inductive Lods where
  | Logarithmic (z_levels : List ℕ)
deriving DecidableEq

/-- `TileSchema` as constructed by the builder; the `f64::NAN` placeholders of
the `lods` vector are modelled as `none`. -/
structure TileSchema where
  origin : Point2
  bounds : SchemaRect
  lods : List (Option ℚ)
  tile_width : ℕ
  tile_height : ℕ
  y_direction : VerticalDirection
deriving DecidableEq

/-- `TileSchemaBuilder`. -/
structure TileSchemaBuilder where
  origin : Point2
  bounds : SchemaRect
  lods : Lods
  tile_width : ℕ
  tile_height : ℕ
  y_direction : VerticalDirection
deriving DecidableEq

/-- `TileSchemaBuilder::build` (builder.rs lines 46–82).  The resolution
`top_resolution / 2^z` is computed in `ℚ` instead of `f64`;
`z_levels.iter().max().unwrap_or(&0)` is the fold below. -/
def TileSchemaBuilder.build (b : TileSchemaBuilder) :
    Except TileSchemaError TileSchema :=
  match b.lods with
  | .Logarithmic z_levels =>
      if z_levels.isEmpty then
        .error .NoZLevelsProvided
      else
        let top_resolution : ℚ := b.bounds.width / (b.tile_width : ℚ)
        let max_z_level : ℕ := z_levels.foldl max 0
        let start : List (Option ℚ) := List.replicate (max_z_level + 1) none
        let lods := z_levels.foldl
          (fun acc z => acc.set z (some (top_resolution / 2 ^ z))) start
        if b.tile_width = 0 ∨ b.tile_height = 0 then
          .error (.InvalidTileSize b.tile_width b.tile_height)
        else
          .ok ⟨b.origin, b.bounds, lods, b.tile_width, b.tile_height,
               b.y_direction⟩

/-! ## Claims -/

/-- C10: for every cache state and every style, calling update with an empty
collection of needed coordinates removes every previously displayed tile
(across all styles) from the map, leaving the map empty, and returns
`false`. -/
theorem C10_empty_needed_clears (c : TileContext Idx Style Bundle Rect)
    (tiles : OMap (Idx × Style) (DisplayedTile Idx Style Bundle))
    (style_id : Style) (now : ℕ) :
    update_displayed_tiles c tiles [] style_id now = ([], false) := rfl

/-- C9: `TileSchemaBuilder::build` errors exactly when the zoom-level set is
empty or a tile dimension is zero, the error names the offending parameter
(`NoZLevelsProvided`, or `InvalidTileSize` with the width and height), and
otherwise a schema value is produced. -/
theorem C9_schema_builder_validation (b : TileSchemaBuilder)
    (z_levels : List ℕ) (h : b.lods = .Logarithmic z_levels) :
    ((b.build).isOk = true ↔
      z_levels ≠ [] ∧ b.tile_width ≠ 0 ∧ b.tile_height ≠ 0) ∧
    (z_levels = [] → b.build = .error .NoZLevelsProvided) ∧
    (z_levels ≠ [] → (b.tile_width = 0 ∨ b.tile_height = 0) →
      b.build = .error (.InvalidTileSize b.tile_width b.tile_height)) ∧
    (z_levels ≠ [] → b.tile_width ≠ 0 → b.tile_height ≠ 0 →
      ∃ s, b.build = .ok s) := by
  by_cases hz : z_levels = []
  · subst hz
    simp [TileSchemaBuilder.build, h, Except.isOk, Except.toBool]
  · by_cases hw : b.tile_width = 0 ∨ b.tile_height = 0
    · have hb : b.build =
          .error (.InvalidTileSize b.tile_width b.tile_height) := by
        simp [TileSchemaBuilder.build, h, hz, hw]
      refine ⟨?_, fun hz' => absurd hz' hz, fun _ _ => hb, ?_⟩
      · rw [hb]
        simp only [Except.isOk, Except.toBool]
        constructor
        · intro hc; exact absurd hc (by simp)
        · rintro ⟨-, hW, hH⟩
          rcases hw with hw | hw
          · exact absurd hw hW
          · exact absurd hw hH
      · intro _ hW hH
        rcases hw with hw | hw
        · exact absurd hw hW
        · exact absurd hw hH
    · have hw1 : b.tile_width ≠ 0 := fun hh => hw (Or.inl hh)
      have hw2 : b.tile_height ≠ 0 := fun hh => hw (Or.inr hh)
      have hb : ∃ s, b.build = .ok s := by
        simp only [TileSchemaBuilder.build, h]
        rw [if_neg (show ¬z_levels.isEmpty = true by simp [hz]), if_neg hw]
        exact ⟨_, rfl⟩
      obtain ⟨s, hbs⟩ := hb
      refine ⟨?_, fun hz' => absurd hz' hz, fun _ hww => absurd hww hw,
        fun _ _ _ => ⟨s, hbs⟩⟩
      rw [hbs]
      simp [hz, hw1, hw2, Except.isOk, Except.toBool]

/-- C3 (amended): `update` returns `true` iff some needed coordinate was
absent and provided by the tile provider (a new insertion), or some needed
coordinate's existing tile was not yet fully opaque (its opacity is
recomputed; under strictly advancing time and an unchanged positive fade
duration that recomputation is an opacity change).  In particular it returns
`false` for an unchanged needed set once all tiles are fully opaque. -/
theorem C3_redraw_signaling_amended (c : TileContext Idx Style Bundle Rect)
    (m : OMap (Idx × Style) (DisplayedTile Idx Style Bundle))
    (needed_indices : List Idx) (style_id : Style) (now : ℕ)
    (hnd : needed_indices.Nodup) :
    (update_displayed_tiles c m needed_indices style_id now).2 = true ↔
      (∃ i ∈ needed_indices, OMap.find? m (i, style_id) = none ∧
        (c.get_tile i style_id).isSome = true) ∨
      (∃ i ∈ needed_indices, ∃ t, OMap.find? m (i, style_id) = some t ∧
        DisplayedTile.is_opaque t = false) := by
  rw [update_snd_char c m needed_indices style_id now hnd, List.any_eq_true]
  constructor
  · rintro ⟨i, hi, hred⟩
    unfold redrawOf at hred
    cases hf : OMap.find? m (i, style_id) with
    | some t =>
        right
        refine ⟨i, hi, t, hf, ?_⟩
        simp only [hf] at hred
        simpa using hred
    | none =>
        left
        refine ⟨i, hi, hf, ?_⟩
        simp only [hf] at hred
        exact hred
  · rintro (⟨i, hi, hf, hg⟩ | ⟨i, hi, t, hf, hop⟩)
    · exact ⟨i, hi, by unfold redrawOf; simp [hf, hg]⟩
    · exact ⟨i, hi, by unfold redrawOf; simp [hf, hop]⟩

/-- C1: after `update`, every needed coordinate is either keyed exactly in
the new map, or covered by at least one tile whose bounding box intersects
its bounding box, provided such a tile was present before the call. -/
theorem C1_no_gap (c : TileContext Idx Style Bundle Rect)
    (m : OMap (Idx × Style) (DisplayedTile Idx Style Bundle))
    (needed_indices : List Idx) (style_id : Style) (now : ℕ)
    (idx : Idx) (r : Rect)
    (hwf : WFMap m) (hkeys : (OMap.keys m).Nodup)
    (hnd : needed_indices.Nodup) (hmem : idx ∈ needed_indices)
    (hbbox : c.tile_bbox idx = some r)
    (hfall : ∃ kv ∈ m, bboxIntersects c kv.1 r = true) :
    (OMap.find? (update_displayed_tiles c m needed_indices style_id now).1
      (idx, style_id)).isSome = true ∨
    ∃ kv ∈ (update_displayed_tiles c m needed_indices style_id now).1,
      bboxIntersects c kv.1 r = true := by
  rw [update_fst_char c m needed_indices style_id now hnd hkeys]
  cases hf : OMap.find? m (idx, style_id) with
  | some t =>
      left
      apply find?_insertNeeded_isSome_left
      have htile : (tileOf c m style_id now idx).isSome = true :=
        tileOf_isSome_of_available (Or.inl (by rw [hf]; rfl))
      obtain ⟨tt, htt⟩ := Option.isSome_iff_exists.mp htile
      have hk := tileOf_key_eq hwf htt
      exact ⟨tt, List.mem_filterMap.mpr ⟨idx, hmem, htt⟩, by rw [hk.1, hk.2]⟩
  | none =>
      cases hg : c.get_tile idx style_id with
      | some bundle =>
          left
          apply find?_insertNeeded_isSome_left
          have htile : (tileOf c m style_id now idx).isSome = true :=
            tileOf_isSome_of_available (Or.inr (by rw [hg]; rfl))
          obtain ⟨tt, htt⟩ := Option.isSome_iff_exists.mp htile
          have hk := tileOf_key_eq hwf htt
          exact ⟨tt, List.mem_filterMap.mpr ⟨idx, hmem, htt⟩, by rw [hk.1, hk.2]⟩
      | none =>
          have hreg : regionOf c m style_id idx = some r := by
            unfold regionOf
            simp [hf, hbbox]
          have hrsubs : r ∈ needed_indices.filterMap (regionOf c m style_id) :=
            List.mem_filterMap.mpr ⟨idx, hmem, hreg⟩
          obtain ⟨kv, hkvm, hkvint⟩ := hfall
          right
          by_cases hrem : kv.1.2 = style_id ∧ kv.1.1 ∈ needed_indices
          · -- the covering tile was itself re-requested: it is re-inserted
            -- under the same key by the needed-tiles pass
            have hkey1 : ((kv.1.1 : Idx), style_id) = kv.1 := by
              rw [← hrem.1]
            have hfind : OMap.find? m (kv.1.1, style_id) = some kv.2 := by
              rw [hkey1]
              exact OMap.find?_of_mem_of_nodup hkeys hkvm
            have htile : (tileOf c m style_id now kv.1.1).isSome = true :=
              tileOf_isSome_of_available (Or.inl (by rw [hfind]; rfl))
            obtain ⟨tt, htt⟩ := Option.isSome_iff_exists.mp htile
            have hk := tileOf_key_eq hwf htt
            have hsome : (OMap.find?
                (insertNeeded (needed_indices.filterMap (tileOf c m style_id now))
                  (fallbackSpec c (remainingMap m needed_indices style_id)
                    (needed_indices.filterMap (regionOf c m style_id))))
                kv.1).isSome = true := by
              apply find?_insertNeeded_isSome_left
              exact ⟨tt, List.mem_filterMap.mpr ⟨kv.1.1, hrem.2, htt⟩,
                by rw [hk.1, hk.2]; exact hkey1⟩
            obtain ⟨w, hw⟩ := Option.isSome_iff_exists.mp hsome
            exact ⟨(kv.1, w), OMap.mem_of_find?_eq_some hw, hkvint⟩
          · -- the covering tile survives the first loop and is selected as a
            -- fallback for the recorded region
            have hd1mem : kv ∈ remainingMap m needed_indices style_id := by
              apply List.mem_filter.mpr
              refine ⟨hkvm, ?_⟩
              by_cases h1 : kv.1.2 = style_id
              · by_cases h2 : kv.1.1 ∈ needed_indices
                · exact absurd ⟨h1, h2⟩ hrem
                · simp [h1, h2]
              · simp [h1]
            have hfs : kv ∈ fallbackSpec c
                (remainingMap m needed_indices style_id)
                (needed_indices.filterMap (regionOf c m style_id)) :=
              (mem_fallbackSpec c _ _ kv).mpr ⟨hd1mem, r, hrsubs, hkvint⟩
            have hsome : (OMap.find?
                (fallbackSpec c (remainingMap m needed_indices style_id)
                  (needed_indices.filterMap (regionOf c m style_id)))
                kv.1).isSome = true :=
              (OMap.find?_isSome_iff _ _).mpr ⟨kv.2, hfs⟩
            have hsome' := find?_insertNeeded_isSome_right
              (needed_indices.filterMap (tileOf c m style_id now)) hsome
            obtain ⟨w, hw⟩ := Option.isSome_iff_exists.mp hsome'
            exact ⟨(kv.1, w), OMap.mem_of_find?_eq_some hw, hkvint⟩

/-- Membership in the map is preserved through an update for any entry that
is re-requested (C5 helper, re-keyed by the needed pass). -/
theorem update_keeps_requested (c : TileContext Idx Style Bundle Rect)
    (m : OMap (Idx × Style) (DisplayedTile Idx Style Bundle))
    (needed_indices : List Idx) (style_id : Style) (now : ℕ)
    (hwf : WFMap m) (hkeys : (OMap.keys m).Nodup)
    (hnd : needed_indices.Nodup) {k : Idx × Style}
    {t : DisplayedTile Idx Style Bundle}
    (hmem : (k, t) ∈ m) (hneed : k.1 ∈ needed_indices)
    (hsty : k.2 = style_id) :
    (OMap.find? (update_displayed_tiles c m needed_indices style_id now).1
      k).isSome = true := by
  rw [update_fst_char c m needed_indices style_id now hnd hkeys]
  apply find?_insertNeeded_isSome_left
  have hkey1 : ((k.1 : Idx), style_id) = k := by rw [← hsty]
  have hfind : OMap.find? m (k.1, style_id) = some t := by
    rw [hkey1]
    exact OMap.find?_of_mem_of_nodup hkeys hmem
  have htile : (tileOf c m style_id now k.1).isSome = true :=
    tileOf_isSome_of_available (Or.inl (by rw [hfind]; rfl))
  obtain ⟨tt, htt⟩ := Option.isSome_iff_exists.mp htile
  have hk := tileOf_key_eq hwf htt
  exact ⟨tt, List.mem_filterMap.mpr ⟨k.1, hneed, htt⟩,
    by rw [hk.1, hk.2]; exact hkey1⟩

/-- C5: a previously displayed tile absent from the new map intersected no
recorded fallback region and was not itself re-requested under the call's
style. -/
theorem C5_eviction (c : TileContext Idx Style Bundle Rect)
    (m : OMap (Idx × Style) (DisplayedTile Idx Style Bundle))
    (needed_indices : List Idx) (style_id : Style) (now : ℕ)
    (k : Idx × Style) (t : DisplayedTile Idx Style Bundle)
    (hwf : WFMap m) (hkeys : (OMap.keys m).Nodup)
    (hnd : needed_indices.Nodup) (hmem : (k, t) ∈ m)
    (hgone : OMap.find?
      (update_displayed_tiles c m needed_indices style_id now).1 k = none) :
    (∀ r ∈ fallbackRegions c m needed_indices style_id now,
      bboxIntersects c k r = false) ∧
    ¬(k.1 ∈ needed_indices ∧ k.2 = style_id) := by
  have hnotreq : ¬(k.1 ∈ needed_indices ∧ k.2 = style_id) := by
    rintro ⟨hneed, hsty⟩
    have := update_keeps_requested c m needed_indices style_id now
      hwf hkeys hnd hmem hneed hsty
    rw [hgone] at this
    simp at this
  refine ⟨?_, hnotreq⟩
  intro r hr
  by_contra hint
  have hint' : bboxIntersects c k r = true := by
    cases h : bboxIntersects c k r with
    | true => rfl
    | false => exact absurd h hint
  rw [fallbackRegions_char c m needed_indices style_id now hnd] at hr
  have hd1mem : (k, t) ∈ remainingMap m needed_indices style_id := by
    apply List.mem_filter.mpr
    refine ⟨hmem, ?_⟩
    by_cases h1 : k.2 = style_id
    · by_cases h2 : k.1 ∈ needed_indices
      · exact absurd ⟨h2, h1⟩ hnotreq
      · simp [h1, h2]
    · simp [h1]
  have hfs : (k, t) ∈ fallbackSpec c
      (remainingMap m needed_indices style_id)
      (needed_indices.filterMap (regionOf c m style_id)) :=
    (mem_fallbackSpec c _ _ (k, t)).mpr ⟨hd1mem, r, hr, hint'⟩
  have hsome : (OMap.find?
      (fallbackSpec c (remainingMap m needed_indices style_id)
        (needed_indices.filterMap (regionOf c m style_id)))
      k).isSome = true :=
    (OMap.find?_isSome_iff _ _).mpr ⟨t, hfs⟩
  have hsome' := find?_insertNeeded_isSome_right
    (needed_indices.filterMap (tileOf c m style_id now)) hsome
  rw [update_fst_char c m needed_indices style_id now hnd hkeys] at hgone
  rw [hgone] at hsome'
  simp at hsome'

/-- C8: a coordinate whose bounding box the geometry oracle cannot compute
contributes no fallback region (every recorded region is the bounding box of
a different needed coordinate), has no influence on the redraw flag (which is
independent of the oracle altogether), and its tile still lands in the new
map whenever it was displayed or the provider has it. -/
theorem C8_geometry_failure (c : TileContext Idx Style Bundle Rect)
    (m : OMap (Idx × Style) (DisplayedTile Idx Style Bundle))
    (needed_indices : List Idx) (style_id : Style) (now : ℕ) (idx : Idx)
    (hwf : WFMap m) (hkeys : (OMap.keys m).Nodup)
    (hnd : needed_indices.Nodup) (hmem : idx ∈ needed_indices)
    (hbbox : c.tile_bbox idx = none) :
    (∀ r ∈ fallbackRegions c m needed_indices style_id now,
      ∃ i ∈ needed_indices, ¬i = idx ∧ c.tile_bbox i = some r) ∧
    (∀ bb : Idx → Option Rect,
      (update_displayed_tiles { c with tile_bbox := bb } m needed_indices
        style_id now).2 =
      (update_displayed_tiles c m needed_indices style_id now).2) ∧
    ((OMap.find? m (idx, style_id)).isSome = true ∨
        (c.get_tile idx style_id).isSome = true →
      (OMap.find? (update_displayed_tiles c m needed_indices style_id now).1
        (idx, style_id)).isSome = true) := by
  refine ⟨?_, ?_, ?_⟩
  · intro r hr
    rw [fallbackRegions_char c m needed_indices style_id now hnd] at hr
    rcases List.mem_filterMap.mp hr with ⟨i, hi, hreg⟩
    have hbb := regionOf_eq_some hreg
    refine ⟨i, hi, ?_, hbb⟩
    intro hEq
    rw [hEq, hbbox] at hbb
    cases hbb
  · intro bb
    rw [update_snd_char { c with tile_bbox := bb } m needed_indices style_id
      now hnd, update_snd_char c m needed_indices style_id now hnd]
    rfl
  · intro h
    rw [update_fst_char c m needed_indices style_id now hnd hkeys]
    apply find?_insertNeeded_isSome_left
    have htile : (tileOf c m style_id now idx).isSome = true :=
      tileOf_isSome_of_available h
    obtain ⟨tt, htt⟩ := Option.isSome_iff_exists.mp htile
    have hk := tileOf_key_eq hwf htt
    exact ⟨tt, List.mem_filterMap.mpr ⟨idx, hmem, htt⟩, by rw [hk.1, hk.2]⟩

theorem filterMap_erase_of_none {α β : Type} [DecidableEq α]
    {f : α → Option β} {a : α} (hf : f a = none) :
    ∀ l : List α, l.filterMap f = (l.erase a).filterMap f := by
  intro l
  induction l with
  | nil => rfl
  | cons b l' ih =>
      by_cases hba : b = a
      · subst hba
        rw [List.erase_cons_head, List.filterMap_cons_none hf]
      · rw [List.erase_cons_tail (by simp [hba])]
        rw [List.filterMap_cons, List.filterMap_cons, ih]

/-- C7: a zero fade duration disables animation: `requires_animation` holds
iff the stored duration exceeds one millisecond, with the duration set to `0`
every tile freshly inserted by `update` is created fully opaque with
`displayed_at = now`, and a coordinate whose tile is already displayed and
opaque contributes nothing to the fallback regions (dropping it from the
request leaves the recorded regions unchanged). -/
theorem C7_zero_fade_disables_animation
    (c : TileContext Idx Style Bundle Rect)
    (m : OMap (Idx × Style) (DisplayedTile Idx Style Bundle))
    (needed_indices : List Idx) (style_id : Style) (now : ℕ)
    (hwf : WFMap m) (hkeys : (OMap.keys m).Nodup)
    (hnd : needed_indices.Nodup) :
    (requires_animation c = true ↔ 1 < c.fade_in_millis) ∧
    (c.fade_in_millis = 0 → ∀ (k : Idx × Style)
        (v : DisplayedTile Idx Style Bundle),
      OMap.find? m k = none →
      OMap.find? (update_displayed_tiles c m needed_indices style_id now).1
        k = some v →
      v.opacity = 1 ∧ v.displayed_at = now) ∧
    (∀ (idx : Idx) (t : DisplayedTile Idx Style Bundle),
      OMap.find? m (idx, style_id) = some t → DisplayedTile.is_opaque t = true →
      fallbackRegions c m needed_indices style_id now =
        fallbackRegions c m (needed_indices.erase idx) style_id now) := by
  refine ⟨by simp [requires_animation], ?_, ?_⟩
  · intro hfz k v hnone hsome
    rw [update_fst_char c m needed_indices style_id now hnd hkeys] at hsome
    rcases find?_insertNeeded_eq_some_cases hsome with ⟨hvnt, hvkey⟩ | hfs
    · rcases List.mem_filterMap.mp hvnt with ⟨i, hi, htile⟩
      have hk := tileOf_key_eq hwf htile
      have hkeq : k = (i, style_id) := by
        rw [← hvkey, hk.1, hk.2]
      rw [hkeq] at hnone
      unfold tileOf at htile
      simp only [hnone] at htile
      cases hg : c.get_tile i style_id with
      | none => rw [hg] at htile; simp at htile
      | some bundle =>
          rw [hg, Option.map_some'] at htile
          cases htile
          constructor
          · show (if requires_animation c then (0 : ℚ) else 1) = 1
            rw [if_neg]
            simp [requires_animation, hfz]
          · rfl
    · exfalso
      have hmem : (k, v) ∈ m :=
        List.mem_of_mem_filter
          ((mem_fallbackSpec c _ _ (k, v)).mp
            (OMap.mem_of_find?_eq_some hfs)).1
      have : (OMap.find? m k).isSome = true :=
        (OMap.find?_isSome_iff m k).mpr ⟨v, hmem⟩
      rw [hnone] at this
      simp at this
  · intro idx t hf hop
    rw [fallbackRegions_char c m needed_indices style_id now hnd,
      fallbackRegions_char c m (needed_indices.erase idx) style_id now
        (hnd.erase idx)]
    apply filterMap_erase_of_none
    unfold regionOf
    simp [hf, hop]

omit [DecidableEq Idx] [DecidableEq Style] in
theorem keys_fallbackSpec_nodup (c : TileContext Idx Style Bundle Rect) :
    ∀ (subs : List Rect)
      (d : OMap (Idx × Style) (DisplayedTile Idx Style Bundle)),
      (OMap.keys d).Nodup → (OMap.keys (fallbackSpec c d subs)).Nodup := by
  intro subs
  induction subs with
  | nil => intro d _; simp [fallbackSpec, OMap.keys]
  | cons r rest ih =>
      intro d hnd
      show (OMap.keys (_ ++ _)).Nodup
      rw [OMap.keys_append, List.nodup_append]
      refine ⟨(OMap.keys_filter_sublist d _).nodup hnd,
        ih _ ((OMap.keys_filter_sublist d _).nodup hnd), ?_⟩
      intro k hk1 hk2
      have hk2' : k ∈ OMap.keys (d.filter
          (fun kv => !bboxIntersects c kv.1 r)) := by
        rcases (OMap.mem_keys_iff _ k).mp hk2 with ⟨v, hv⟩
        have := ((mem_fallbackSpec c rest _ (k, v)).mp hv).1
        exact (OMap.mem_keys_iff _ k).mpr ⟨v, this⟩
      exact keys_filter_key_disjoint d (fun key => bboxIntersects c key r)
        k hk1 hk2'

/-- C2: the rebuild is exactly the specified one — fallback regions are
processed in recorded order with first-region-wins tie-breaks
(`fallbackSpec`), each old entry is moved at most once (the fallback part has
duplicate-free keys), and the needed tiles are inserted afterwards by key, so
a needed tile overwrites a fallback sharing its exact key (last write wins)
while fallback entries at other keys are untouched. -/
theorem C2_rebuild_order (c : TileContext Idx Style Bundle Rect)
    (m : OMap (Idx × Style) (DisplayedTile Idx Style Bundle))
    (to_substitute : List Rect)
    (needed_tiles : List (DisplayedTile Idx Style Bundle))
    (hkeys : (OMap.keys m).Nodup) :
    rebuildMap c m to_substitute needed_tiles =
      insertNeeded needed_tiles (fallbackSpec c m to_substitute) ∧
    (OMap.keys (fallbackSpec c m to_substitute)).Nodup ∧
    (∀ k, OMap.find? (rebuildMap c m to_substitute needed_tiles) k =
      (List.find? (fun t => decide ((t.index, t.style_id) = k))
          needed_tiles.reverse).or
        (OMap.find? (fallbackSpec c m to_substitute) k)) :=
  ⟨rebuildMap_char c m to_substitute needed_tiles hkeys,
   keys_fallbackSpec_nodup c to_substitute m hkeys,
   fun k => by
     rw [rebuildMap_char c m to_substitute needed_tiles hkeys,
       find?_insertNeeded]
     cases List.find? (fun t => decide ((t.index, t.style_id) = k))
         needed_tiles.reverse <;> simp⟩

omit [DecidableEq Idx] [DecidableEq Style] in
/-- Once the elapsed time reaches the fade duration and fading is active, the
recomputed opacity ratio saturates at exactly `1`. -/
theorem fade_ratio_eq_one {c : TileContext Idx Style Bundle Rect} {e : ℕ}
    (hfa : fade_in_secs c > 1 / 1000) (hle : c.fade_in_millis ≤ e) :
    min (((e : ℚ) / 1000) / fade_in_secs c) 1 = 1 := by
  unfold fade_in_secs at hfa ⊢
  have hm1 : (1 : ℚ) < (c.fade_in_millis : ℚ) :=
    (div_lt_div_iff_of_pos_right (by norm_num : (0 : ℚ) < 1000)).mp hfa
  have hmpos : (0 : ℚ) < (c.fade_in_millis : ℚ) / 1000 :=
    div_pos (by linarith) (by norm_num)
  have h1 : (1 : ℚ) ≤ ((e : ℚ) / 1000) / ((c.fade_in_millis : ℚ) / 1000) := by
    rw [one_le_div hmpos, div_le_div_iff_of_pos_right (by norm_num : (0 : ℚ) < 1000)]
    exact_mod_cast hle
  exact min_eq_right h1

/-- C4 (amended): for a key re-requested by an update call — with the usual
map invariants, and the stored opacity below the value the fade formula
currently yields (the invariant consecutive calls with the same fade duration
maintain) — the new opacity is never below the old one, `displayed_at` is
unchanged, and once the elapsed time reaches the fade duration the tile is
fully opaque, with opacity exactly `1.0` when it had not already crossed the
opaque threshold. -/
theorem C4_monotonic_opacity_amended (c : TileContext Idx Style Bundle Rect)
    (m : OMap (Idx × Style) (DisplayedTile Idx Style Bundle))
    (needed_indices : List Idx) (style_id : Style) (now : ℕ)
    (idx : Idx) (t : DisplayedTile Idx Style Bundle)
    (hwf : WFMap m) (hkeys : (OMap.keys m).Nodup)
    (hnd : needed_indices.Nodup) (hmem : idx ∈ needed_indices)
    (hfind : OMap.find? m (idx, style_id) = some t)
    (hinv : DisplayedTile.is_opaque t = true ∨
      t.opacity ≤ min (elapsed_secs now t.displayed_at / fade_in_secs c) 1) :
    ∃ t', OMap.find?
        (update_displayed_tiles c m needed_indices style_id now).1
        (idx, style_id) = some t' ∧
      t'.displayed_at = t.displayed_at ∧
      t.opacity ≤ t'.opacity ∧
      (c.fade_in_millis ≤ now - t.displayed_at → DisplayedTile.is_opaque t' = true) ∧
      (DisplayedTile.is_opaque t = false → c.fade_in_millis ≤ now - t.displayed_at →
        t'.opacity = 1) := by
  have hkeyt : t.index = idx ∧ t.style_id = style_id := by
    have hmem' := OMap.mem_of_find?_eq_some hfind
    have hk := hwf _ hmem'
    exact ⟨(congrArg Prod.fst hk).symm, (congrArg Prod.snd hk).symm⟩
  rw [update_fst_char c m needed_indices style_id now hnd hkeys]
  by_cases hop : DisplayedTile.is_opaque t = true
  · have htile : tileOf c m style_id now idx = some t := by
      unfold tileOf
      simp [hfind, hop]
    have hfound : OMap.find?
        (insertNeeded (needed_indices.filterMap (tileOf c m style_id now))
          (fallbackSpec c (remainingMap m needed_indices style_id)
            (needed_indices.filterMap (regionOf c m style_id))))
        (idx, style_id) = some t := by
      apply find?_insertNeeded_of_unique
        (List.mem_filterMap.mpr ⟨idx, hmem, htile⟩)
        (by rw [hkeyt.1, hkeyt.2])
      intro u hu hukey
      rcases List.mem_filterMap.mp hu with ⟨j, _, htj⟩
      have hkj := tileOf_key_eq hwf htj
      have : j = idx := by
        have := congrArg Prod.fst hukey
        simpa [hkj.1] using this
      rw [this, htile] at htj
      cases htj
      rfl
    exact ⟨t, hfound, rfl, le_refl _, fun _ => hop,
      fun hcontra => absurd hop (by simp [hcontra])⟩
  · have hinv' : t.opacity ≤
        min (elapsed_secs now t.displayed_at / fade_in_secs c) 1 := by
      rcases hinv with h | h
      · exact absurd h hop
      · exact h
    have htile : tileOf c m style_id now idx = some
        { t with opacity :=
            if fade_in_secs c > 1 / 1000 then
              min (elapsed_secs now t.displayed_at / fade_in_secs c) 1
            else 1 } := by
      unfold tileOf
      simp [hfind, hop]
    have hfound : OMap.find?
        (insertNeeded (needed_indices.filterMap (tileOf c m style_id now))
          (fallbackSpec c (remainingMap m needed_indices style_id)
            (needed_indices.filterMap (regionOf c m style_id))))
        (idx, style_id) = some
          { t with opacity :=
              if fade_in_secs c > 1 / 1000 then
                min (elapsed_secs now t.displayed_at / fade_in_secs c) 1
              else 1 } := by
      apply find?_insertNeeded_of_unique
        (List.mem_filterMap.mpr ⟨idx, hmem, htile⟩)
        (by show (t.index, t.style_id) = _; rw [hkeyt.1, hkeyt.2])
      intro u hu hukey
      rcases List.mem_filterMap.mp hu with ⟨j, _, htj⟩
      have hkj := tileOf_key_eq hwf htj
      have : j = idx := by
        have := congrArg Prod.fst hukey
        simpa [hkj.1] using this
      rw [this, htile] at htj
      cases htj
      rfl
    have hone : c.fade_in_millis ≤ now - t.displayed_at →
        (if fade_in_secs c > 1 / 1000 then
          min (elapsed_secs now t.displayed_at / fade_in_secs c) 1
        else (1 : ℚ)) = 1 := by
      intro helap
      by_cases hfa : fade_in_secs c > 1 / 1000
      · rw [if_pos hfa]
        exact fade_ratio_eq_one hfa helap
      · rw [if_neg hfa]
    refine ⟨_, hfound, rfl, ?_, ?_, fun _ helap => hone helap⟩
    · show t.opacity ≤ _
      by_cases hfa : fade_in_secs c > 1 / 1000
      · rw [if_pos hfa]
        exact hinv'
      · rw [if_neg hfa]
        exact le_trans hinv' (min_le_right _ _)
    · intro helap
      show decide ((999 : ℚ) / 1000 ≤
        (if fade_in_secs c > 1 / 1000 then
          min (elapsed_secs now t.displayed_at / fade_in_secs c) 1
        else 1)) = true
      rw [hone helap, decide_eq_true_eq]
      norm_num

theorem filterMap_eq_map_of_forall {α β : Type} {f : α → Option β}
    {g : α → β} : ∀ {l : List α}, (∀ a ∈ l, f a = some (g a)) →
    l.filterMap f = l.map g := by
  intro l
  induction l with
  | nil => intro _; rfl
  | cons a l' ih =>
      intro h
      rw [List.filterMap_cons_some (h a (List.mem_cons_self a l')),
        List.map_cons, ih (fun b hb => h b (List.mem_cons_of_mem _ hb))]

theorem OMap.find?_append {K V : Type} [DecidableEq K]
    (m₁ m₂ : OMap K V) (k : K) :
    OMap.find? (m₁ ++ m₂) k = (OMap.find? m₁ k).or (OMap.find? m₂ k) := by
  unfold OMap.find?
  rw [List.find?_append]
  cases List.find? (fun kv => decide (kv.1 = k)) m₁ <;> simp

theorem insertNeeded_fresh :
    ∀ (nt : List (DisplayedTile Idx Style Bundle))
      (nd : OMap (Idx × Style) (DisplayedTile Idx Style Bundle)),
      (∀ t ∈ nt, OMap.find? nd (t.index, t.style_id) = none) →
      (nt.map (fun t => ((t.index, t.style_id) : Idx × Style))).Nodup →
      insertNeeded nt nd =
        nd ++ nt.map (fun t => ((t.index, t.style_id), t)) := by
  intro nt
  induction nt with
  | nil => intro nd _ _; simp [insertNeeded]
  | cons t ts ih =>
      intro nd hfresh hnd
      show insertNeeded ts (OMap.insert nd (t.index, t.style_id) t) = _
      rw [OMap.insert_of_find?_eq_none (hfresh t (List.mem_cons_self t ts)) t]
      rw [ih _ ?_ (List.nodup_cons.mp hnd).2]
      · rw [List.map_cons, List.append_assoc]
        rfl
      · intro u hu
        rw [OMap.find?_append, hfresh u (List.mem_cons_of_mem _ hu)]
        have hne : ((t.index, t.style_id) : Idx × Style) ≠
            (u.index, u.style_id) := by
          intro hEq
          have hmm : ((t.index, t.style_id) : Idx × Style) ∈
              ts.map (fun t => ((t.index, t.style_id) : Idx × Style)) := by
            rw [hEq]
            exact List.mem_map_of_mem _ hu
          exact (List.nodup_cons.mp hnd).1 hmm
        rw [Option.none_or, OMap.find?_cons, if_neg hne]
        rfl

omit [DecidableEq Idx] [DecidableEq Style] in
theorem fallbackSpec_nil (c : TileContext Idx Style Bundle Rect) :
    ∀ subs : List Rect, fallbackSpec c [] subs = [] := by
  intro subs
  induction subs with
  | nil => rfl
  | cons r rest ih => simp [fallbackSpec, ih]

/-- C6 (amended): when the map consists exactly of the requested tiles, in
request order under the call's style, all fully opaque — the state any
preceding call with this request produces — `update` returns the map
unchanged, with unchanged iteration order, and reports `false`. -/
theorem C6_idempotent_fixed_point_amended
    (c : TileContext Idx Style Bundle Rect)
    (m : OMap (Idx × Style) (DisplayedTile Idx Style Bundle))
    (needed_indices : List Idx) (style_id : Style) (now : ℕ)
    (hwf : WFMap m) (hkeys : (OMap.keys m).Nodup)
    (hsty : ∀ kv ∈ m, kv.1.2 = style_id)
    (hop : ∀ kv ∈ m, DisplayedTile.is_opaque kv.2 = true)
    (hneeded : needed_indices = m.map (fun kv => kv.1.1)) :
    update_displayed_tiles c m needed_indices style_id now = (m, false) := by
  have hkm : OMap.keys m = needed_indices.map (fun i => (i, style_id)) := by
    rw [hneeded, List.map_map]
    apply List.map_congr_left
    intro kv hkv
    show kv.1 = (kv.1.1, style_id)
    rw [← hsty kv hkv]
  have hndneeded : needed_indices.Nodup := by
    have hh := hkeys
    rw [hkm] at hh
    exact hh.of_map
  have hfind : ∀ kv ∈ m, OMap.find? m (kv.1.1, style_id) = some kv.2 := by
    intro kv hkv
    have hk1 : ((kv.1.1 : Idx), style_id) = kv.1 := by rw [← hsty kv hkv]
    rw [hk1]
    exact OMap.find?_of_mem_of_nodup hkeys hkv
  have htiles : needed_indices.filterMap (tileOf c m style_id now) =
      m.map Prod.snd := by
    rw [hneeded, List.filterMap_map]
    apply filterMap_eq_map_of_forall
    intro kv hkv
    show tileOf c m style_id now kv.1.1 = some kv.2
    unfold tileOf
    simp [hfind kv hkv, hop kv hkv]
  have hregions : needed_indices.filterMap (regionOf c m style_id) = [] := by
    rw [hneeded, List.filterMap_map]
    apply List.filterMap_eq_nil_iff.mpr
    intro kv hkv
    show regionOf c m style_id kv.1.1 = none
    unfold regionOf
    simp [hfind kv hkv, hop kv hkv]
  have hredraw : needed_indices.any (redrawOf c m style_id) = false := by
    apply List.any_eq_false.mpr
    intro i hi
    rw [hneeded] at hi
    rcases List.mem_map.mp hi with ⟨kv, hkv, rfl⟩
    unfold redrawOf
    simp [hfind kv hkv, hop kv hkv]
  have hremain : remainingMap m needed_indices style_id = [] := by
    apply List.filter_eq_nil_iff.mpr
    intro kv hkv
    have hmemn : kv.1.1 ∈ needed_indices := by
      rw [hneeded]
      exact List.mem_map_of_mem _ hkv
    simp [hsty kv hkv, hmemn]
  have h1 : (update_displayed_tiles c m needed_indices style_id now).1 = m := by
    rw [update_fst_char c m needed_indices style_id now hndneeded hkeys,
      hremain, hregions, htiles]
    have hfs0 : fallbackSpec c ([] :
        OMap (Idx × Style) (DisplayedTile Idx Style Bundle)) [] = [] := rfl
    rw [hfs0]
    rw [insertNeeded_fresh (m.map Prod.snd) [] (fun t _ => rfl) ?_]
    · rw [List.nil_append, List.map_map]
      have hid : ∀ kv ∈ m,
          ((((kv : (Idx × Style) × DisplayedTile Idx Style Bundle).2.index,
            kv.2.style_id), kv.2)) = id kv := by
        intro kv hkv
        show ((kv.2.index, kv.2.style_id), kv.2) = kv
        rw [← hwf kv hkv]
      rw [show ((fun t => ((t.index, t.style_id), t)) ∘
          (Prod.snd : (Idx × Style) × DisplayedTile Idx Style Bundle →
            DisplayedTile Idx Style Bundle)) =
          (fun kv : (Idx × Style) × DisplayedTile Idx Style Bundle =>
            ((kv.2.index, kv.2.style_id), kv.2)) from rfl]
      rw [List.map_congr_left hid, List.map_id]
    · rw [List.map_map]
      have hkeyeq : ∀ kv ∈ m,
          ((((kv : (Idx × Style) × DisplayedTile Idx Style Bundle).2.index,
            kv.2.style_id) : Idx × Style)) = kv.1 :=
        fun kv hkv => (hwf kv hkv).symm
      rw [show ((fun t => ((t.index, t.style_id) : Idx × Style)) ∘
          (Prod.snd : (Idx × Style) × DisplayedTile Idx Style Bundle →
            DisplayedTile Idx Style Bundle)) =
          (fun kv : (Idx × Style) × DisplayedTile Idx Style Bundle =>
            ((kv.2.index, kv.2.style_id) : Idx × Style)) from rfl]
      rw [List.map_congr_left hkeyeq]
      exact hkeys
  have h2 : (update_displayed_tiles c m needed_indices style_id now).2 =
      false := by
    rw [update_snd_char c m needed_indices style_id now hndneeded, hredraw]
  exact Prod.ext_iff.mpr ⟨h1, h2⟩

instance (m : OMap (Idx × Style) (DisplayedTile Idx Style Bundle)) :
    Decidable (WFMap m) :=
  List.decidableBAll _ m

/-! ## Concrete instances for counterexamples and witnesses -/

/-- Oracle with no geometry, no provider tiles, default 300 ms fade. -/
def cNoGeom : TileContext ℕ ℕ Unit ℕ :=
  ⟨fun _ => none, fun _ _ => false, fun _ _ => none, 300⟩

/-- A fully transparent tile at index 0, style 0, shown at instant 0. -/
def tFresh : DisplayedTile ℕ ℕ Unit :=
  ⟨0, (), 0, 0, 0⟩

/-- A map holding only `tFresh`. -/
def mFreshTile : OMap (ℕ × ℕ) (DisplayedTile ℕ ℕ Unit) :=
  [((0, 0), tFresh)]

/-- C3 counterexample: with the fresh (opacity `0.0`) tile re-requested at
the very instant it was inserted, the call inserts nothing and recomputes the
opacity to the same value `0.0` — the resulting map equals the old one
exactly — yet `update` returns `true`.  This refutes "returns true iff a
tile was newly inserted or an existing tile's opacity changed". -/
theorem C3_redraw_signaling_counterexample :
    update_displayed_tiles cNoGeom mFreshTile [0] 0 0 = (mFreshTile, true) := by
  with_unfolding_all decide

/-- C3 amended witness at the same concrete instance. -/
theorem C3_redraw_signaling_amended_witness :
    (update_displayed_tiles cNoGeom mFreshTile [0] 0 0).2 = true ↔
      (∃ i ∈ [0], OMap.find? mFreshTile (i, 0) = none ∧
        (cNoGeom.get_tile i 0).isSome = true) ∨
      (∃ i ∈ [0], ∃ t, OMap.find? mFreshTile (i, 0) = some t ∧
        DisplayedTile.is_opaque t = false) :=
  C3_redraw_signaling_amended cNoGeom mFreshTile [0] 0 0 (by with_unfolding_all decide)

/-- Oracle mapping every index to the same bounding box, equality as the
intersection test, no provider tiles, 300 ms fade. -/
def cOneBox : TileContext ℕ ℕ Unit ℕ :=
  ⟨fun _ => some 0, fun a b => decide (a = b), fun _ _ => none, 300⟩

/-- A single half-faded tile (opacity `0.5`) shown at instant 0. -/
def mHalfFaded : OMap (ℕ × ℕ) (DisplayedTile ℕ ℕ Unit) :=
  [((0, 0), ⟨0, (), 0, 1 / 2, 0⟩)]

/-- C4 counterexample: the half-faded tile stays continuously present across
an update at `now = 1000` (retained as a fallback for the requested but
unavailable index 1), the timestamps increase, the elapsed time 1000 ms
exceeds the 300 ms fade duration — yet its opacity remains `0.5`, never
reaching `1.0`.  This refutes the claim for keys that are continuously
present without being re-requested. -/
theorem C4_monotonic_opacity_counterexample :
    update_displayed_tiles cOneBox mHalfFaded [1] 0 1000 =
      (mHalfFaded, false) := by
  with_unfolding_all decide

/-- C4 amended witness: the fresh tile of `mFreshTile` re-requested at
`now = 300` (one full fade duration later). -/
theorem C4_monotonic_opacity_amended_witness :
    ∃ t', OMap.find?
        (update_displayed_tiles cNoGeom mFreshTile [0] 0 300).1
        (0, 0) = some t' ∧
      t'.displayed_at = tFresh.displayed_at ∧
      tFresh.opacity ≤ t'.opacity ∧
      (cNoGeom.fade_in_millis ≤ 300 - tFresh.displayed_at →
        DisplayedTile.is_opaque t' = true) ∧
      (DisplayedTile.is_opaque tFresh = false →
        cNoGeom.fade_in_millis ≤ 300 - tFresh.displayed_at →
        t'.opacity = 1) :=
  C4_monotonic_opacity_amended cNoGeom mFreshTile [0] 0 300 0 tFresh
    (by with_unfolding_all decide) (by with_unfolding_all decide)
    (by with_unfolding_all decide) (by with_unfolding_all decide)
    (by with_unfolding_all decide) (Or.inr (by with_unfolding_all decide))

/-- Two fully opaque tiles at indices 0 and 1 under style 0. -/
def mTwoOpaque : OMap (ℕ × ℕ) (DisplayedTile ℕ ℕ Unit) :=
  [((0, 0), ⟨0, (), 0, 1, 0⟩), ((1, 0), ⟨1, (), 0, 1, 0⟩)]

/-- C6 counterexample: both requested tiles (just the index 0 here) are
present and fully opaque, yet the very first repeated call evicts the
non-requested opaque tile at index 1 — the map contents change, refuting
"repeated update calls … leave the map contents and its iteration order
unchanged". -/
theorem C6_idempotence_counterexample :
    (update_displayed_tiles cNoGeom mTwoOpaque [0] 0 0).1 ≠ mTwoOpaque := by
  with_unfolding_all decide

/-- C6 amended witness: requesting exactly the two opaque tiles in map order
is a fixed point. -/
theorem C6_idempotent_fixed_point_amended_witness :
    update_displayed_tiles cNoGeom mTwoOpaque [0, 1] 0 42 =
      (mTwoOpaque, false) :=
  C6_idempotent_fixed_point_amended cNoGeom mTwoOpaque [0, 1] 0 42
    (by with_unfolding_all decide) (by with_unfolding_all decide) (by with_unfolding_all decide) (by with_unfolding_all decide) (by with_unfolding_all decide)

/-- Oracle giving each index its own bounding box, with an intersection test
that always succeeds, no provider tiles, 300 ms fade. -/
def cAllIntersect : TileContext ℕ ℕ Unit ℕ :=
  ⟨fun i => some i, fun _ _ => true, fun _ _ => none, 300⟩

/-- One fully opaque tile at index 5, style 0. -/
def mOpaque5 : OMap (ℕ × ℕ) (DisplayedTile ℕ ℕ Unit) :=
  [((5, 0), ⟨5, (), 0, 1, 0⟩)]

/-- C1 witness: index 7 is requested, unavailable, and its box is covered by
the old tile at index 5. -/
theorem C1_no_gap_witness :
    (OMap.find? (update_displayed_tiles cAllIntersect mOpaque5 [7] 0 0).1
      (7, 0)).isSome = true ∨
    ∃ kv ∈ (update_displayed_tiles cAllIntersect mOpaque5 [7] 0 0).1,
      bboxIntersects cAllIntersect kv.1 7 = true :=
  C1_no_gap cAllIntersect mOpaque5 [7] 0 0 7 7 (by with_unfolding_all decide) (by with_unfolding_all decide)
    (by with_unfolding_all decide) (by with_unfolding_all decide) rfl (by with_unfolding_all decide)

/-- A needed tile used by the C2 witness. -/
def tNeeded9 : DisplayedTile ℕ ℕ Unit :=
  ⟨9, (), 0, 0, 0⟩

/-- C2 witness: one old entry, one recorded region, one needed tile. -/
theorem C2_rebuild_order_witness :
    rebuildMap cOneBox mHalfFaded [0] [tNeeded9] =
      insertNeeded [tNeeded9] (fallbackSpec cOneBox mHalfFaded [0]) ∧
    (OMap.keys (fallbackSpec cOneBox mHalfFaded [0])).Nodup ∧
    (∀ k, OMap.find? (rebuildMap cOneBox mHalfFaded [0] [tNeeded9]) k =
      (List.find? (fun t => decide ((t.index, t.style_id) = k))
          [tNeeded9].reverse).or
        (OMap.find? (fallbackSpec cOneBox mHalfFaded [0]) k)) :=
  C2_rebuild_order cOneBox mHalfFaded [0] [tNeeded9]
    (by with_unfolding_all decide)

/-- Oracle with per-index boxes and an equality intersection test: the box of
index 5 does not meet the box of index 7. -/
def cOwnBox : TileContext ℕ ℕ Unit ℕ :=
  ⟨fun i => some i, fun a b => decide (a = b), fun _ _ => none, 300⟩

/-- C5 witness: requesting only index 7 evicts the non-intersecting opaque
tile at index 5. -/
theorem C5_eviction_witness :
    (∀ r ∈ fallbackRegions cOwnBox mOpaque5 [7] 0 0,
      bboxIntersects cOwnBox ((5, 0) : ℕ × ℕ) r = false) ∧
    ¬((5 : ℕ) ∈ [7] ∧ (0 : ℕ) = 0) :=
  C5_eviction cOwnBox mOpaque5 [7] 0 0 (5, 0) ⟨5, (), 0, 1, 0⟩
    (by with_unfolding_all decide) (by with_unfolding_all decide) (by with_unfolding_all decide) (by with_unfolding_all decide) (by with_unfolding_all decide)

/-- Provider that always has a tile, per-index boxes, zero fade duration. -/
def cZeroFade : TileContext ℕ ℕ Unit ℕ :=
  ⟨fun i => some i, fun _ _ => true, fun _ _ => some (), 0⟩

/-- C7 witness at a map holding one opaque tile at index 5. -/
theorem C7_zero_fade_disables_animation_witness :
    (requires_animation cZeroFade = true ↔ 1 < cZeroFade.fade_in_millis) ∧
    ((cZeroFade.fade_in_millis = 0) → ∀ (k : ℕ × ℕ)
        (v : DisplayedTile ℕ ℕ Unit),
      OMap.find? mOpaque5 k = none →
      OMap.find? (update_displayed_tiles cZeroFade mOpaque5 [5, 7] 0 11).1
        k = some v →
      v.opacity = 1 ∧ v.displayed_at = 11) ∧
    (∀ (idx : ℕ) (t : DisplayedTile ℕ ℕ Unit),
      OMap.find? mOpaque5 (idx, 0) = some t → DisplayedTile.is_opaque t = true →
      fallbackRegions cZeroFade mOpaque5 [5, 7] 0 11 =
        fallbackRegions cZeroFade mOpaque5 ([5, 7].erase idx) 0 11) :=
  C7_zero_fade_disables_animation cZeroFade mOpaque5 [5, 7] 0 11
    (by with_unfolding_all decide) (by with_unfolding_all decide) (by with_unfolding_all decide)

/-- Provider that always has a tile; the oracle fails on index 7 only. -/
def cNoBox7 : TileContext ℕ ℕ Unit ℕ :=
  ⟨fun i => if i = 7 then none else some i, fun _ _ => true,
   fun _ _ => some (), 300⟩

/-- C8 witness: index 7 has no bounding box but its provided tile is still
displayed. -/
theorem C8_geometry_failure_witness :
    (∀ r ∈ fallbackRegions cNoBox7 mOpaque5 [5, 7] 0 0,
      ∃ i ∈ [5, 7], ¬i = 7 ∧ cNoBox7.tile_bbox i = some r) ∧
    (∀ bb : ℕ → Option ℕ,
      (update_displayed_tiles { cNoBox7 with tile_bbox := bb } mOpaque5
        [5, 7] 0 0).2 =
      (update_displayed_tiles cNoBox7 mOpaque5 [5, 7] 0 0).2) ∧
    ((OMap.find? mOpaque5 ((7 : ℕ), (0 : ℕ))).isSome = true ∨
        (cNoBox7.get_tile 7 0).isSome = true →
      (OMap.find? (update_displayed_tiles cNoBox7 mOpaque5 [5, 7] 0 0).1
        (7, 0)).isSome = true) :=
  C8_geometry_failure cNoBox7 mOpaque5 [5, 7] 0 0 7 (by with_unfolding_all decide) (by with_unfolding_all decide)
    (by with_unfolding_all decide) (by with_unfolding_all decide) (by with_unfolding_all decide)

/-- A small valid builder configuration for the C9 witness. -/
def bSmall : TileSchemaBuilder :=
  ⟨⟨0, 0⟩, ⟨0, 0, 1, 1⟩, .Logarithmic [0, 1, 2], 256, 256, .TopToBottom⟩

/-- C9 witness at the small valid builder. -/
theorem C9_schema_builder_validation_witness :
    ((bSmall.build).isOk = true ↔
      [0, 1, 2] ≠ ([] : List ℕ) ∧ bSmall.tile_width ≠ 0 ∧
        bSmall.tile_height ≠ 0) ∧
    (([0, 1, 2] : List ℕ) = [] →
      bSmall.build = .error .NoZLevelsProvided) ∧
    (([0, 1, 2] : List ℕ) ≠ [] →
      (bSmall.tile_width = 0 ∨ bSmall.tile_height = 0) →
      bSmall.build =
        .error (.InvalidTileSize bSmall.tile_width bSmall.tile_height)) ∧
    (([0, 1, 2] : List ℕ) ≠ [] → bSmall.tile_width ≠ 0 →
      bSmall.tile_height ≠ 0 → ∃ s, bSmall.build = .ok s) :=
  C9_schema_builder_validation bSmall [0, 1, 2] rfl

end Galileo
